import Mathlib

/-!
# gdelt-downloader: a shallow embedding of `main.go`

The file embeds the manifest parser (`fetchMasterFilelist`), the ledger
(`loadDownloadedFiles`, `markFileAsDownloaded`), the download engine
(`downloadFile`), the dispatcher loop of `main` and the archive extractor
(`unzipFile`) as pure functions with explicit state, and proves properties of
them.

Conventions.
* Go strings are lists of characters (well-formed UTF-8), file contents are
  lists of bytes.
* Paths follow the Unix build of Go: the separator is `/`, there is no volume
  name.  The functions of the Go standard library that `main.go` calls are
  modelled after their documented behaviour; `filepath.Clean` works on the
  components of the path, which is what the byte loop of the library computes.
* A file system is a map from paths to the contents of the regular files.  The
  ledger `downloaded_files.log` lives in the working directory and is kept as
  a separate component of the state; every path `downloadFile` touches starts
  with `gdelt_data`, so the two never alias.
* The failures of the operating system and of the network that the code tests
  for are inputs of the model (`Env`, `ManifestResponse.ReadFails`,
  `ZipEntry.fault`), so each error return of the source is a branch of the
  embedding.  How the reader of a manifest body reports the end of input
  (`ManifestResponse.EOFWithData`) is an input too, because the line scanner
  depends on it for a last line that exactly fills its buffer.
* The goroutines of `main` are modelled as atomic tasks executed in an arbitrary
  completion order.
-/

namespace Gdelt

/-- One byte of a file or of a response body. -/
abbrev Byte := UInt8

/-! ## Go standard library: `strings`, `unicode`, `strconv` -/

/-- Go `strings.Contains(s, sub)`: `sub` occurs in `s` at some offset. -/
def strings.Contains (s sub : List Char) : Bool :=
  s.tails.any (fun t => sub.isPrefixOf t)

/-- Go `strings.HasPrefix(s, p)`. -/
def strings.HasPrefix (s p : List Char) : Bool :=
  p.isPrefixOf s

/-- Go `strings.TrimSuffix`. -/
def strings.TrimSuffix (s suffix : List Char) : List Char :=
  if suffix.reverse.isPrefixOf s.reverse then s.take (s.length - suffix.length) else s

/-- Split a character list at every character satisfying `p`; the pieces are
the (possibly empty) maximal runs between such characters. -/
def splitBy (p : Char → Bool) : List Char → List (List Char)
  | [] => [[]]
  | c :: cs =>
    if p c then [] :: splitBy p cs
    else
      match splitBy p cs with
      | [] => [[c]]
      | h :: t => (c :: h) :: t

/-- Go `unicode.IsSpace`: the Unicode White_Space code points. -/
def unicode.IsSpace (c : Char) : Bool :=
  let n := c.toNat
  n = 0x09 || n = 0x0A || n = 0x0B || n = 0x0C || n = 0x0D || n = 0x20 ||
  n = 0x85 || n = 0xA0 || n = 0x1680 || (0x2000 ≤ n && n ≤ 0x200A) ||
  n = 0x2028 || n = 0x2029 || n = 0x202F || n = 0x205F || n = 0x3000

/-- Go `strings.Fields`: the maximal runs of non-space characters. -/
def strings.Fields (s : List Char) : List (List Char) :=
  (splitBy unicode.IsSpace s).filter (fun f => !f.isEmpty)

/-- Decimal digit test used by `strconv.ParseUint` in base 10. -/
def isDecDigit (c : Char) : Bool :=
  48 ≤ c.toNat && c.toNat ≤ 57

/-- Value of a run of decimal digits. -/
def decValue (ds : List Char) : Nat :=
  ds.foldl (fun acc d => 10 * acc + (d.toNat - 48)) 0

/-- Go `strconv.ParseInt(s, 10, 64)`: an optional sign followed by a non-empty
run of decimal digits whose value fits a signed 64-bit integer; `none` stands
for a syntax or range error. -/
def strconv.ParseInt (s : List Char) : Option Int :=
  match s with
  | [] => none
  | c :: rest =>
    let neg : Bool := c = '-'
    let digits := if c = '+' ∨ c = '-' then rest else s
    if digits.isEmpty || !digits.all isDecDigit then none
    else
      let un := decValue digits
      if neg then
        if un > 9223372036854775808 then none else some (-(un : Int))
      else
        if un ≥ 9223372036854775808 then none else some (un : Int)

/-! ## Go standard library: `path/filepath` (Unix) -/

/-- Join path components with the separator. -/
def joinSep : List (List Char) → List Char
  | [] => []
  | [c] => c
  | c :: d :: cs => c ++ '/' :: joinSep (d :: cs)

/-- The parent-directory component. -/
def dotdot : List Char := ['.', '.']

/-- One step of `filepath.Clean` over the components of a path.  The stack holds
the components written so far, last one first.  Empty and `.` components are
dropped; a `..` component removes the last ordinary component, is dropped at
the root of a rooted path, and is kept at the start of a relative path. -/
def cleanStep (rooted : Bool) (stack : List (List Char)) (c : List Char) :
    List (List Char) :=
  if c = [] ∨ c = ['.'] then stack
  else if c = dotdot then
    if rooted then stack.tail
    else
      match stack with
      | [] => [dotdot]
      | top :: rest => if top = dotdot then dotdot :: stack else rest
  else c :: stack

/-- Go `filepath.Clean`: the shortest path equivalent to `path` by purely
lexical processing. -/
def filepath.Clean (path : List Char) : List Char :=
  if path = [] then ['.']
  else
    let rooted : Bool := path.head? = some '/'
    let stack := (splitBy (fun c => c = '/') path).foldl (cleanStep rooted) []
    if rooted then '/' :: joinSep stack.reverse
    else if stack = [] then ['.']
    else joinSep stack.reverse

/-- Go `filepath.Join(a, b)`: empty elements are ignored and the result is
cleaned; joining only empty elements gives the empty string. -/
def filepath.Join (a b : List Char) : List Char :=
  if a ≠ [] then filepath.Clean (a ++ '/' :: b)
  else if b ≠ [] then filepath.Clean b
  else []

/-- Remove trailing separators. -/
def stripTrailingSlashes (path : List Char) : List Char :=
  (path.reverse.dropWhile (fun c => c = '/')).reverse

/-- Go `filepath.Base`: the last element of the path, after removing trailing
separators; `.` for the empty path and `/` for a path of separators only. -/
def filepath.Base (path : List Char) : List Char :=
  if path = [] then ['.']
  else
    let p := stripTrailingSlashes path
    let last := (splitBy (fun c => c = '/') p).getLast?.getD []
    if last = [] then ['/'] else last

/-- Go `filepath.Dir`: all but the last element of the path, cleaned. -/
def filepath.Dir (path : List Char) : List Char :=
  filepath.Clean ((path.reverse.dropWhile (fun c => c ≠ '/')).reverse)

/-! ## Go standard library: `bufio.Scanner` with `ScanLines` -/

/-- Go `bufio.MaxScanTokenSize`. -/
def maxScanTokenSize : Nat := 65536

/-- Length of a string in bytes (UTF-8). -/
def utf8Len (s : List Char) : Nat :=
  (s.map Char.utf8Size).sum

/-- The lines of a text as `ScanLines` delimits them: the text is cut at every
newline, and a final unterminated line counts only when it is not empty. -/
def rawLines (body : List Char) : List (List Char) :=
  let ps := splitBy (fun c => c = '\n') body
  if ps.getLast? = some [] then ps.dropLast else ps

/-- Go `dropCR`: remove one trailing carriage return. -/
def dropCR (l : List Char) : List Char :=
  if l.getLast? = some '\r' then l.dropLast else l

/-- The lines among the pieces between the newlines of a text: the last piece
is the unterminated rest of the text and counts only when it is not empty. -/
def linesOf (pieces : List (List Char)) : List (List Char) :=
  if pieces.getLast? = some [] then pieces.dropLast else pieces

/-- The scanner loop `for scanner.Scan() { ... scanner.Text() ... }` run on the
pieces between the newlines of the input: the tokens delivered, and whether
the scanner stopped with `ErrTooLong`.  The buffer of the scanner grows to
`maxScanTokenSize` bytes.  A line followed by a newline must fit the buffer
together with that newline, so it is too long from `maxScanTokenSize` bytes on.
The unterminated rest of the input is delivered when the end of input is seen;
a rest of exactly `maxScanTokenSize` bytes fills the buffer and is delivered
only if the reader reports the end of input together with the last bytes
(`eofWithData`, as the body of an HTTP response with a content length does and
a file does not); a longer rest is too long. -/
def scanLines (eofWithData : Bool) : List (List Char) → List (List Char) × Bool
  | [] => ([], false)
  | [rest] =>
    if rest = [] then ([], false)
    else if utf8Len rest < maxScanTokenSize ∨
        (utf8Len rest = maxScanTokenSize ∧ eofWithData = true) then ([dropCR rest], false)
    else ([], true)
  | l :: r :: rs =>
    if maxScanTokenSize ≤ utf8Len l then ([], true)
    else ((dropCR l) :: (scanLines eofWithData (r :: rs)).1, (scanLines eofWithData (r :: rs)).2)

/-! ## Go standard library: `crypto/md5`, `encoding/hex` -/

/-- The MD5 sine table. -/
def md5K : List Nat := [
  0xd76aa478, 0xe8c7b756, 0x242070db, 0xc1bdceee,
  0xf57c0faf, 0x4787c62a, 0xa8304613, 0xfd469501,
  0x698098d8, 0x8b44f7af, 0xffff5bb1, 0x895cd7be,
  0x6b901122, 0xfd987193, 0xa679438e, 0x49b40821,
  0xf61e2562, 0xc040b340, 0x265e5a51, 0xe9b6c7aa,
  0xd62f105d, 0x02441453, 0xd8a1e681, 0xe7d3fbc8,
  0x21e1cde6, 0xc33707d6, 0xf4d50d87, 0x455a14ed,
  0xa9e3e905, 0xfcefa3f8, 0x676f02d9, 0x8d2a4c8a,
  0xfffa3942, 0x8771f681, 0x6d9d6122, 0xfde5380c,
  0xa4beea44, 0x4bdecfa9, 0xf6bb4b60, 0xbebfbc70,
  0x289b7ec6, 0xeaa127fa, 0xd4ef3085, 0x04881d05,
  0xd9d4d039, 0xe6db99e5, 0x1fa27cf8, 0xc4ac5665,
  0xf4292244, 0x432aff97, 0xab9423a7, 0xfc93a039,
  0x655b59c3, 0x8f0ccc92, 0xffeff47d, 0x85845dd1,
  0x6fa87e4f, 0xfe2ce6e0, 0xa3014314, 0x4e0811a1,
  0xf7537e82, 0xbd3af235, 0x2ad7d2bb, 0xeb86d391]

/-- The MD5 per-round rotation amounts. -/
def md5S : List Nat := [
  7, 12, 17, 22, 7, 12, 17, 22, 7, 12, 17, 22, 7, 12, 17, 22,
  5, 9, 14, 20, 5, 9, 14, 20, 5, 9, 14, 20, 5, 9, 14, 20,
  4, 11, 16, 23, 4, 11, 16, 23, 4, 11, 16, 23, 4, 11, 16, 23,
  6, 10, 15, 21, 6, 10, 15, 21, 6, 10, 15, 21, 6, 10, 15, 21]

/-- Modulus of 32-bit words. -/
def w32 : Nat := 4294967296

/-- Rotate a 32-bit word left. -/
def rotl32 (x s : Nat) : Nat := ((x <<< s) ||| (x >>> (32 - s))) % w32

/-- Bitwise complement of a 32-bit word. -/
def not32 (x : Nat) : Nat := (w32 - 1) ^^^ x

/-- The four chaining words of MD5. -/
structure MD5State where
  a : Nat
  b : Nat
  c : Nat
  d : Nat

/-- Initial chaining value. -/
def md5Init : MD5State := ⟨0x67452301, 0xefcdab89, 0x98badcfe, 0x10325476⟩

/-- Little-endian 32-bit word at the start of a byte list. -/
def leWord (bs : List Nat) : Nat :=
  bs.getD 0 0 + 256 * bs.getD 1 0 + 65536 * bs.getD 2 0 + 16777216 * bs.getD 3 0

/-- One of the 64 MD5 operations on message words `m`. -/
def md5Round (m : List Nat) (s : MD5State) (i : Nat) : MD5State :=
  let fg : Nat × Nat :=
    if i < 16 then ((s.b &&& s.c) ||| (not32 s.b &&& s.d), i)
    else if i < 32 then ((s.d &&& s.b) ||| (not32 s.d &&& s.c), (5 * i + 1) % 16)
    else if i < 48 then (s.b ^^^ s.c ^^^ s.d, (3 * i + 5) % 16)
    else (s.c ^^^ (s.b ||| not32 s.d), (7 * i) % 16)
  let f := (fg.1 + s.a + md5K.getD i 0 + m.getD fg.2 0) % w32
  ⟨s.d, (s.b + rotl32 f (md5S.getD i 0)) % w32, s.b, s.c⟩

/-- The MD5 compression function on one 64-byte block. -/
def md5Block (s : MD5State) (block : List Nat) : MD5State :=
  let m := (List.range 16).map (fun j => leWord (block.drop (4 * j)))
  let r := (List.range 64).foldl (md5Round m) s
  ⟨(s.a + r.a) % w32, (s.b + r.b) % w32, (s.c + r.c) % w32, (s.d + r.d) % w32⟩

/-- MD5 padding: a `0x80` byte, zeros up to 56 modulo 64, the bit length as a
64-bit little-endian integer. -/
def md5Pad (msg : List Nat) : List Nat :=
  let len := msg.length
  let zeros := (119 - len % 64) % 64
  let bits := (8 * len) % 18446744073709551616
  msg ++ [128] ++ List.replicate zeros 0 ++
    (List.range 8).map (fun j => (bits >>> (8 * j)) % 256)

/-- Compress `n` consecutive blocks. -/
def md5Blocks : Nat → List Nat → MD5State → MD5State
  | 0, _, s => s
  | n + 1, bs, s => md5Blocks n (bs.drop 64) (md5Block s (bs.take 64))

/-- Little-endian bytes of a 32-bit word. -/
def leBytes (x : Nat) : List Nat :=
  (List.range 4).map (fun j => (x >>> (8 * j)) % 256)

/-- Go `md5.Sum`: the 16-byte MD5 digest (RFC 1321) of everything written to
the hash. -/
def md5.Sum (msg : List Byte) : List Nat :=
  let p := md5Pad (msg.map UInt8.toNat)
  let s := md5Blocks (p.length / 64) p md5Init
  leBytes s.a ++ leBytes s.b ++ leBytes s.c ++ leBytes s.d

/-- Lower-case hexadecimal digit. -/
def hexDigit (n : Nat) : Char := "0123456789abcdef".toList.getD n '0'

/-- Go `hex.EncodeToString`. -/
def hex.EncodeToString (bs : List Nat) : List Char :=
  bs.flatMap (fun b => [hexDigit (b / 16), hexDigit (b % 16)])

/-- The value `hex.EncodeToString(hash.Sum(nil))` after `msg` was written to a
fresh `md5.New()`. -/
def md5Hex (msg : List Byte) : List Char :=
  hex.EncodeToString (md5.Sum msg)

/-- The bytes of an ASCII string literal. -/
def bytesOf (s : String) : List Byte :=
  s.toList.map (fun c => UInt8.ofNat c.toNat)

/-- Equality of Go results `(value, error)` is decidable. -/
instance exceptDecEq {ε α : Type} [DecidableEq ε] [DecidableEq α] : DecidableEq (Except ε α)
  | .ok a, .ok b =>
    if h : a = b then isTrue (by rw [h]) else isFalse (fun h2 => h (Except.ok.inj h2))
  | .error a, .error b =>
    if h : a = b then isTrue (by rw [h]) else isFalse (fun h2 => h (Except.error.inj h2))
  | .ok _, .error _ => isFalse (fun h => Except.noConfusion h)
  | .error _, .ok _ => isFalse (fun h => Except.noConfusion h)

/-! ## Data model of `main.go` -/

/-- Constant `downloadDir`. -/
def downloadDir : List Char := "gdelt_data".toList

/-- One row of the master file list (`type GDELTFile struct`). -/
structure GDELTFile where
  Size : Int
  MD5Sum : List Char
  URL : List Char
  Filename : List Char
deriving DecidableEq

/-- The regular files of the file system, by path. -/
abbrev FS := List Char → Option (List Byte)

/-- Set the content of one file. -/
def FS.write (fs : FS) (path : List Char) (content : List Byte) : FS :=
  fun p => if p = path then some content else fs p

/-- A successful `os.Rename(src, dst)`: `dst` takes the content of `src`, which
disappears. -/
def FS.rename (fs : FS) (src dst : List Char) : FS :=
  fun p => if p = dst then fs src else if p = src then none else fs p

/-! ## `fetchMasterFilelist` -/

/-- What `http.Get` hands back when the transport succeeded. -/
structure ManifestResponse where
  StatusCode : Nat
  Body : List Char
  /-- Whether reading the body fails after `Body` was delivered. -/
  ReadFails : Bool
  /-- Whether the body reader reports the end of input together with the last
  bytes (a body with a content length) or in a separate read. -/
  EOFWithData : Bool
deriving DecidableEq

/-- The error returns of `fetchMasterFilelist`. -/
inductive FetchError where
  | transport
  | status (code : Nat)
  | read
deriving DecidableEq

/-- Body of the loop `for scanner.Scan()` of `fetchMasterFilelist` for one
line: lines without exactly three fields, or whose first field is not an
`int64`, are skipped with `continue`; otherwise one entry is appended. -/
def parseLine (files : List GDELTFile) (line : List Char) : List GDELTFile :=
  let parts := strings.Fields line
  if parts.length ≠ 3 then files
  else
    match strconv.ParseInt (parts.getD 0 []) with
    | none => files
    | some size =>
      let fileURL := parts.getD 2 []
      let filename := filepath.Base fileURL
      files ++ [{ Size := size, MD5Sum := parts.getD 1 [], URL := fileURL,
                  Filename := filename }]

/-- The scanner loop of `fetchMasterFilelist` run on the text the scanner could
read: the value of `files` when the loop exits, and whether the scanner gave
up on an over-long line. -/
def parseLoop (eofWithData : Bool) (body : List Char) : List GDELTFile × Bool :=
  let sc := scanLines eofWithData (splitBy (fun c => c = '\n') body)
  (sc.1.foldl parseLine [], sc.2)

/-- The function `fetchMasterFilelist`, given the outcome of `http.Get(url)`
(`none` is a transport error). -/
def fetchMasterFilelist (resp : Option ManifestResponse) :
    Except FetchError (List GDELTFile) :=
  match resp with
  | none => .error .transport
  | some r =>
    if r.StatusCode ≠ 200 then .error (.status r.StatusCode)
    else
      let res := parseLoop r.EOFWithData r.Body
      -- `scanner.Err()`: an over-long line or a failed read
      if res.2 || r.ReadFails then .error .read else .ok res.1

/-- A manifest response with status 200 whose body is read to the end. -/
def okResponse (eofWithData : Bool) (body : List Char) : Option ManifestResponse :=
  some ⟨200, body, false, eofWithData⟩

/-! ## `downloadFile` -/

/-- The request `downloadFile` sends: the URL and, on resume, the offset of the
header `Range: bytes=N-`. -/
structure Request where
  URL : List Char
  Range : Option Nat
deriving DecidableEq

/-- The response to a download request. -/
structure Response where
  StatusCode : Nat
  Body : List Byte
deriving DecidableEq

/-- Everything outside the program that a run depends on. -/
structure Env where
  /-- Whether `http.NewRequest` accepts the URL. -/
  requestOk : List Char → Bool
  /-- Outcome of `client.Do`; `none` is a transport error. -/
  server : Request → Option Response
  /-- Whether `os.OpenFile` on the staged path fails. -/
  openFails : List Char → Bool
  /-- Whether `io.Copy` fails, and after how many bytes were written. -/
  copyFault : Request → Option Nat
  /-- Whether `os.Rename` fails. -/
  renameFails : List Char → List Char → Bool
  /-- Whether opening the ledger for reading fails although it exists. -/
  logReadFails : Bool
  /-- Whether `os.OpenFile` on the ledger fails in `markFileAsDownloaded`. -/
  logOpenFails : List Char → Bool
  /-- Whether writing the ledger line fails. -/
  logWriteFails : List Char → Bool

/-- The error returns of `downloadFile`, in source order. -/
inductive DownloadError where
  | invalidFilename (name : List Char)
  | createRequest
  | transport
  | unexpectedStatus (code : Nat)
  | openTemp
  | writeData
  | md5Mismatch (expected got : List Char)
  | renameTemp
deriving DecidableEq

/-- The operations `downloadFile` performs on the outside world, in order. -/
inductive Op where
  | newRequest (url : List Char)
  | stat (path : List Char)
  | httpDo (req : Request)
  | openAppend (path : List Char)
  | write (path : List Char) (data : List Byte)
  | rename (src dst : List Char)
deriving DecidableEq

/-- Outcome of one call of `downloadFile`. -/
structure DownloadResult where
  err : Option DownloadError
  fs : FS
  ops : List Op

/-- The variable `filePath` of `downloadFile`: where the Final Artifact goes. -/
def finalPath (file : GDELTFile) : List Char :=
  filepath.Join downloadDir file.Filename

/-- The variable `tempFilePath` of `downloadFile`: where the Staged Artifact
goes. -/
def stagedPath (file : GDELTFile) : List Char :=
  finalPath file ++ ".tmp".toList

/-- The function `downloadFile`. -/
def downloadFile (env : Env) (fs : FS) (file : GDELTFile) : DownloadResult :=
  if strings.Contains file.Filename "..".toList || strings.Contains file.Filename "/".toList
      || strings.Contains file.Filename "\\".toList then
    ⟨some (.invalidFilename file.Filename), fs, []⟩
  else
    let filePath := finalPath file
    let tempFilePath := stagedPath file
    if !env.requestOk file.URL then
      ⟨some .createRequest, fs, [.newRequest file.URL]⟩
    else
      -- `os.Stat(tempFilePath)`: a staged file gives the resume offset
      let startByte : Option Nat := (fs tempFilePath).map List.length
      let req : Request := ⟨file.URL, startByte⟩
      let ops1 := [Op.newRequest file.URL, Op.stat tempFilePath, Op.httpDo req]
      match env.server req with
      | none => ⟨some .transport, fs, ops1⟩
      | some resp =>
        if resp.StatusCode ≠ 200 ∧ resp.StatusCode ≠ 206 then
          ⟨some (.unexpectedStatus resp.StatusCode), fs, ops1⟩
        else if env.openFails tempFilePath then
          ⟨some .openTemp, fs, ops1 ++ [.openAppend tempFilePath]⟩
        else
          -- `O_CREATE|O_APPEND`: the body is appended to what is staged
          let staged := (fs tempFilePath).getD []
          match env.copyFault req with
          | some n =>
            ⟨some .writeData, fs.write tempFilePath (staged ++ resp.Body.take n),
              ops1 ++ [.openAppend tempFilePath, .write tempFilePath (resp.Body.take n)]⟩
          | none =>
            let fs1 := fs.write tempFilePath (staged ++ resp.Body)
            let ops2 := ops1 ++ [.openAppend tempFilePath, .write tempFilePath resp.Body]
            -- the hash saw exactly the bytes of this response
            let calculatedMD5 := md5Hex resp.Body
            if calculatedMD5 ≠ file.MD5Sum then
              ⟨some (.md5Mismatch file.MD5Sum calculatedMD5), fs1, ops2⟩
            else if env.renameFails tempFilePath filePath then
              ⟨some .renameTemp, fs1, ops2 ++ [.rename tempFilePath filePath]⟩
            else
              ⟨none, fs1.rename tempFilePath filePath, ops2 ++ [.rename tempFilePath filePath]⟩

/-! ## The ledger -/

/-- The function `loadDownloadedFiles`: the keys of the returned map.  A missing
ledger and an unreadable one both give the empty map; a scanner error is only
printed, so the lines read before it are kept.  The ledger is a file, which
reports its end in a read of its own. -/
def loadDownloadedFiles (env : Env) (log : Option (List Char)) : List (List Char) :=
  match log with
  | none => []
  | some content =>
    if env.logReadFails then []
    else (scanLines false (splitBy (fun c => c = '\n') content)).1

/-- The function `markFileAsDownloaded`: append `url` and a newline to the
ledger, creating it when missing; failures are printed and otherwise ignored. -/
def markFileAsDownloaded (env : Env) (log : Option (List Char)) (url : List Char) :
    Option (List Char) :=
  if env.logOpenFails url then log
  else if env.logWriteFails url then some (log.getD [])
  else some (log.getD [] ++ url ++ ['\n'])

/-! ## The dispatcher loop of `main` -/

/-- The files and the ledger. -/
structure World where
  fs : FS
  log : Option (List Char)

/-- The entries for which the loop of `main` launches a goroutine: those whose
URL is not a key of `downloaded`, in manifest order. -/
def pendingFiles (downloaded : List (List Char)) (masterList : List GDELTFile) :
    List GDELTFile :=
  masterList.filter (fun file => !(downloaded.contains file.URL))

/-- The goroutine body `func(f GDELTFile)`: `downloadFile`, then
`markFileAsDownloaded` when it returned no error. -/
def downloadTask (env : Env) (w : World) (f : GDELTFile) : World :=
  let r := downloadFile env w.fs f
  match r.err with
  | some _ => { w with fs := r.fs }
  | none => { fs := r.fs, log := markFileAsDownloaded env w.log f.URL }

/-- The tasks of one run executed one after the other in completion order
`order`, up to `wg.Wait()`. -/
def runTasks (env : Env) (w : World) (order : List GDELTFile) : World :=
  order.foldl (downloadTask env) w

/-- Whether every `downloadFile` call of the tasks in `order` returns nil. -/
def allSucceed (env : Env) : World → List GDELTFile → Bool
  | _, [] => true
  | w, f :: fs =>
    (downloadFile env w.fs f).err.isNone && allSucceed env (downloadTask env w f) fs

/-- A default-mode run of `main` after the download directory exists: load the
ledger, fetch the manifest, launch one task per pending entry and wait.
Returns the launched tasks and the final state; a manifest error ends the run
before anything is launched. -/
def syncRun (env : Env) (resp : Option ManifestResponse)
    (schedule : List GDELTFile → List GDELTFile) (w : World) : List GDELTFile × World :=
  let downloaded := loadDownloadedFiles env w.log
  match fetchMasterFilelist resp with
  | .error _ => ([], w)
  | .ok masterList =>
    let launched := pendingFiles downloaded masterList
    (launched, runTasks env w (schedule launched))

/-! ## `unzipAllFiles` and `unzipFile` -/

/-- The variable `destDir` of `unzipAllFiles` for the directory entry `name`. -/
def destDirOf (name : List Char) : List Char :=
  filepath.Join downloadDir (strings.TrimSuffix name ".zip".toList)

/-- Where the extraction of an archive entry fails, if it does. -/
inductive ZipFault where
  /-- `os.MkdirAll` fails. -/
  | mkdir
  /-- `os.OpenFile` on the output path fails. -/
  | openOut
  /-- `f.Open()` fails; the output file was already created. -/
  | openEntry
  /-- `io.Copy` or a `Close` fails after `written` bytes. -/
  | copy (written : Nat)
deriving DecidableEq

/-- One member of `r.File`: its name, whether `f.FileInfo().IsDir()`, its
content, and the failure (if any) the operating system answers with. -/
structure ZipEntry where
  Name : List Char
  IsDir : Bool
  Content : List Byte
  fault : Option ZipFault
deriving DecidableEq

/-- The error returns of `unzipFile`. -/
inductive UnzipError where
  | openArchive
  | illegalPath (fpath : List Char)
  | fileSystem (fault : ZipFault)
deriving DecidableEq

/-- What `unzipFile` creates. -/
inductive Effect where
  /-- `os.MkdirAll(fpath)` for a directory entry. -/
  | mkdirEntry (path : List Char)
  /-- `os.MkdirAll(filepath.Dir(fpath))` for a file entry. -/
  | mkdirParent (path : List Char)
  /-- `os.OpenFile(fpath, O_WRONLY|O_CREATE|O_TRUNC)` and the copy into it. -/
  | writeFile (path : List Char) (content : List Byte)
deriving DecidableEq

/-- The zip-slip guard of `unzipFile`: `fpath` has the prefix
`filepath.Clean(dest) + "/"`. -/
def zipSlipCheck (dest fpath : List Char) : Bool :=
  strings.HasPrefix fpath (filepath.Clean dest ++ ['/'])

/-- The loop `for _, f := range r.File` of `unzipFile`: the error returned (if
any) and the effects performed, in order. -/
def unzipLoop (dest : List Char) : List ZipEntry → Option UnzipError × List Effect
  | [] => (none, [])
  | f :: rest =>
    let fpath := filepath.Join dest f.Name
    if !zipSlipCheck dest fpath then (some (.illegalPath fpath), [])
    else if f.IsDir then
      match f.fault with
      | some .mkdir => (some (.fileSystem .mkdir), [])
      | _ => ((unzipLoop dest rest).1, Effect.mkdirEntry fpath :: (unzipLoop dest rest).2)
    else
      match f.fault with
      | some .mkdir => (some (.fileSystem .mkdir), [])
      | some .openOut =>
        (some (.fileSystem .openOut), [Effect.mkdirParent (filepath.Dir fpath)])
      | some .openEntry =>
        (some (.fileSystem .openEntry),
          [Effect.mkdirParent (filepath.Dir fpath), Effect.writeFile fpath []])
      | some (.copy n) =>
        (some (.fileSystem (.copy n)),
          [Effect.mkdirParent (filepath.Dir fpath), Effect.writeFile fpath (f.Content.take n)])
      | none =>
        ((unzipLoop dest rest).1,
          Effect.mkdirParent (filepath.Dir fpath) :: Effect.writeFile fpath f.Content ::
            (unzipLoop dest rest).2)

/-- The function `unzipFile`; `archive` is the result of `zip.OpenReader(src)`
(`none` when it fails). -/
def unzipFile (archive : Option (List ZipEntry)) (dest : List Char) :
    Option UnzipError × List Effect :=
  match archive with
  | none => (some .openArchive, [])
  | some files => unzipLoop dest files

/-! ## Predicates used in the statements -/

/-- The name check of the spec: the name contains a traversal sequence `..` or
a separator character `/` or `\`. -/
def UnsafeName (name : List Char) : Prop :=
  dotdot <:+: name ∨ '/' ∈ name ∨ '\\' ∈ name

/-- A path component that names a directory entry: not empty, not `.`, not
`..`. -/
def ordinary (c : List Char) : Bool :=
  c ≠ [] && c ≠ ['.'] && c ≠ dotdot

/-- Path `p` lies strictly beneath `root`, read off the text: it is `root`, a
separator, and one or more ordinary components separated by single separators,
so no component of the remainder climbs back out of `root`.  This implies
`inside root p`; for the roots `.` and `/` no cleaned path has this textual
form, although paths are inside them. -/
def beneath (root p : List Char) : Bool :=
  strings.HasPrefix p (root ++ ['/']) &&
    (splitBy (fun c => c = '/') (p.drop (root.length + 1))).all ordinary

/-- A cleaned path as a sequence of directory steps: whether it starts at the
file-system root, and its components without the empty ones and `.` (so `.`
and `/` have no component). -/
def pathComps (p : List Char) : Bool × List (List Char) :=
  (p.head? = some '/',
    (splitBy (fun c => c = '/') p).filter (fun c => c ≠ [] && c ≠ ['.']))

/-- Containment of cleaned paths: `p` names something strictly inside the
directory `root`.  Both start at the file-system root or both are relative,
and the steps of `p` are those of `root` followed by one or more ordinary
components. -/
def inside (root p : List Char) : Bool :=
  ((pathComps root).1 == (pathComps p).1) &&
    (pathComps root).2.isPrefixOf (pathComps p).2 &&
    ((pathComps p).2.drop (pathComps root).2.length).all ordinary &&
    decide ((pathComps root).2.length < (pathComps p).2.length)

/-- The cleaned path with the given steps. -/
def render (rooted : Bool) (cs : List (List Char)) : List Char :=
  if rooted then '/' :: joinSep cs else if cs = [] then ['.'] else joinSep cs

/-- The last component of a path is `..`. -/
def endsInDotDot (p : List Char) : Bool :=
  (splitBy (fun c => c = '/') p).getLast? = some dotdot

/-- An effect of `unzipFile` stays inside `root`: entries are materialised
strictly beneath it, parent directories are `root` itself or beneath it. -/
def effectConfined (root : List Char) : Effect → Bool
  | .mkdirEntry p => beneath root p
  | .writeFile p _ => beneath root p
  | .mkdirParent p => p = root || beneath root p

/-- Components of a cleaned relative path, in path order: some `..`, then
ordinary components only. -/
def cleanComps : List (List Char) → Bool
  | [] => true
  | c :: cs => (c = dotdot && cleanComps cs) || (ordinary c && cs.all ordinary)

/-- The stack of `cleanStep` for a relative path, last component first:
ordinary components on top of `..` components. -/
def stackOK : List (List Char) → Bool
  | [] => true
  | c :: rest => (ordinary c && stackOK rest) || (c = dotdot && rest.all (fun d => d = dotdot))

/-- A manifest line is well-formed when splitting it on whitespace yields
exactly three fields and the first parses as a base-10 signed 64-bit integer. -/
def wellFormed (line : List Char) : Bool :=
  (strings.Fields line).length = 3 &&
    (strconv.ParseInt ((strings.Fields line).getD 0 [])).isSome

/-- The entry of a well-formed line: size, checksum and URL are the three
fields, the file name is the final path segment of the URL. -/
def entryOf (line : List Char) : GDELTFile :=
  { Size := (strconv.ParseInt ((strings.Fields line).getD 0 [])).getD 0
    MD5Sum := (strings.Fields line).getD 1 []
    URL := (strings.Fields line).getD 2 []
    Filename := filepath.Base ((strings.Fields line).getD 2 []) }

/-- The lines of a manifest body, without their terminators. -/
def manifestLines (body : List Char) : List (List Char) :=
  (rawLines body).map dropCR

/-- The lines of a text that are followed by a newline, as they stand in the
text (a trailing carriage return included). -/
def terminatedLines (body : List Char) : List (List Char) :=
  (splitBy (fun c => c = '\n') body).dropLast

/-- The entries a manifest body stands for: one per well-formed line, in line
order. -/
def expectedEntries (body : List Char) : List GDELTFile :=
  ((manifestLines body).filter wellFormed).map entryOf

/-- The text of a ledger to which `markFileAsDownloaded` appended the given
URLs: one URL per line. -/
def ledgerOf (us : List (List Char)) : List Char :=
  us.flatMap (fun u => u ++ ['\n'])

/-- A URL that survives a round trip through the ledger: it has no newline, no
trailing carriage return, and fits the scanner buffer. -/
def ledgerSafe (u : List Char) : Prop :=
  (∀ c ∈ u, c ≠ '\n') ∧ u.getLast? ≠ some '\r' ∧ utf8Len u < maxScanTokenSize

/-- The ledger file is missing, or holds exactly the lines `us`. -/
def logLines (log : Option (List Char)) (us : List (List Char)) : Prop :=
  (log = none ∧ us = []) ∨ log = some (ledgerOf us)

/-! ## Concrete environments and inputs -/

/-- A file system without files. -/
def emptyFS : FS := fun _ => none

/-- An environment in which nothing fails and the server answers every request
with status 200 and the given body. -/
def serveAll (body : List Byte) : Env where
  requestOk := fun _ => true
  server := fun _ => some ⟨200, body⟩
  openFails := fun _ => false
  copyFault := fun _ => none
  renameFails := fun _ _ => false
  logReadFails := false
  logOpenFails := fun _ => false
  logWriteFails := fun _ => false

/-- A server holding `content` under every URL that honours range requests:
status 200 with the whole content, or status 206 with the content from the
requested offset on. -/
def rangeServer (content : List Byte) : Env where
  requestOk := fun _ => true
  server := fun req =>
    match req.Range with
    | none => some ⟨200, content⟩
    | some n => some ⟨206, content.drop n⟩
  openFails := fun _ => false
  copyFault := fun _ => none
  renameFails := fun _ _ => false
  logReadFails := false
  logOpenFails := fun _ => false
  logWriteFails := fun _ => false

/-- An environment in which the server sends `body` and nothing fails except
opening the ledger for writing. -/
def readOnlyLedgerEnv (body : List Byte) : Env where
  requestOk := fun _ => true
  server := fun _ => some ⟨200, body⟩
  openFails := fun _ => false
  copyFault := fun _ => none
  renameFails := fun _ _ => false
  logReadFails := false
  logOpenFails := fun _ => true
  logWriteFails := fun _ => false

/-- An environment whose server sends an empty body and in which renaming a
file onto the existing download directory fails. -/
def dirRenameEnv : Env where
  requestOk := fun _ => true
  server := fun _ => some ⟨200, []⟩
  openFails := fun _ => false
  copyFault := fun _ => none
  renameFails := fun _ dst => dst = downloadDir
  logReadFails := false
  logOpenFails := fun _ => false
  logWriteFails := fun _ => false

/-- The manifest entry for a remote file `a.zip` whose content is `abc`. -/
def abcEntry : GDELTFile :=
  ⟨3, "900150983cd24fb0d6963f7d28e17f72".toList, "http://host/a.zip".toList, "a.zip".toList⟩

/-- A destination directory holding only a Staged Artifact `a.zip.tmp` with the
first byte of `abc`. -/
def stagedOneByte : FS :=
  emptyFS.write "gdelt_data/a.zip.tmp".toList (bytesOf "a")

/-- A manifest line whose URL ends in `/.`. -/
def dotLine : List Char := "0 d41d8cd98f00b204e9800998ecf8427e http://host/.".toList

/-- The entry `fetchMasterFilelist` builds from `dotLine`. -/
def dotEntry : GDELTFile :=
  ⟨0, "d41d8cd98f00b204e9800998ecf8427e".toList, "http://host/.".toList, ".".toList⟩

/-- The manifest line of the concrete scenario of the spec. -/
def demoLine : List Char :=
  "100 9e107d9d372bb6826bd81d3542a419d6 http://host/a.zip".toList

/-- The entry of `demoLine`. -/
def demoEntry : GDELTFile :=
  ⟨100, "9e107d9d372bb6826bd81d3542a419d6".toList, "http://host/a.zip".toList,
    "a.zip".toList⟩

/-- A line of exactly `bufio.MaxScanTokenSize` bytes. -/
def longLine : List Char := List.replicate maxScanTokenSize 'x'

/-- Two manifest lines with different URLs and the same final path segment. -/
def twinBody : List Char :=
  "1 d41d8cd98f00b204e9800998ecf8427e http://a/x.zip\n1 d41d8cd98f00b204e9800998ecf8427e http://b/x.zip".toList

/-! ## Test vectors of the library models -/

/-- The MD5 test suite of RFC 1321 and the digest used in the spec. -/
theorem md5Hex_test_vectors :
    ["", "a", "abc", "message digest", "abcdefghijklmnopqrstuvwxyz",
      "ABCDEFGHIJKLMNOPQRSTUVWXYZabcdefghijklmnopqrstuvwxyz0123456789",
      "12345678901234567890123456789012345678901234567890123456789012345678901234567890",
      "The quick brown fox jumps over the lazy dog"].map (fun s => md5Hex (bytesOf s))
    = ["d41d8cd98f00b204e9800998ecf8427e", "0cc175b9c0f1b6a831c399e269772661",
      "900150983cd24fb0d6963f7d28e17f72", "f96b697d7cb7938d525a2f31aaf161d0",
      "c3fcd3d76192e4007dfb496cca67e13b", "d174ab98d277d9f5a5611c2c9f419d9f",
      "57edf4a22be3c955ac49da2e2107b67a", "9e107d9d372bb6826bd81d3542a419d6"].map
        String.toList := by
  decide!

/-- The table of the Go test `TestClean`. -/
theorem filepath_Clean_test_vectors :
    ["abc", "abc/def", "a/b/c", ".", "..", "../..", "../../abc", "/abc", "/",
      "", "abc/", "abc/def/", "a/b/c/", "./", "../", "../../", "/abc/",
      "abc//def//ghi", "//abc", "///abc", "//abc//", "abc//",
      "abc/./def", "/./abc/def", "abc/.",
      "abc/def/ghi/../jkl", "abc/def/../ghi/../jkl", "abc/def/..", "abc/def/../..",
      "/abc/def/../..", "abc/def/../../..", "/abc/def/../../..",
      "abc/def/../../../ghi/jkl/../../../mno", "/../abc",
      "abc/./../def", "abc//./../def", "abc/../../././../def"].map
        (fun s => filepath.Clean s.toList)
    = ["abc", "abc/def", "a/b/c", ".", "..", "../..", "../../abc", "/abc", "/",
      ".", "abc", "abc/def", "a/b/c", ".", "..", "../..", "/abc",
      "abc/def/ghi", "/abc", "/abc", "/abc", "abc",
      "abc/def", "/abc/def", "abc",
      "abc/def/jkl", "abc/jkl", "abc", ".",
      "/", "..", "/",
      "../../mno", "/abc",
      "def", "def", "../../def"].map String.toList := by
  decide

/-- The tables of the Go tests `TestBase` and `TestDir`, and joins. -/
theorem filepath_Base_Dir_Join_test_vectors :
    ["", ".", "/.", "/", "////", "x/", "abc", "abc/def", "a/b/.x", "a/b/c.", "a/b/c.x"].map
        (fun s => filepath.Base s.toList)
      = [".", ".", ".", "/", "/", "x", "abc", "def", ".x", "c.", "c.x"].map String.toList ∧
    ["", ".", "/.", "/", "/foo", "x/", "abc", "abc/def", "a/b/.x", "a/b/c.", "a/b/c.x"].map
        (fun s => filepath.Dir s.toList)
      = [".", ".", "/", "/", "/", "x", ".", "abc", "a/b", "a/b", "a/b"].map String.toList ∧
    [("a", "b"), ("a", ""), ("", "b"), ("", ""), ("/", "a"), ("a/", "b"), ("a", "/b"),
      ("a", "../b"), ("a", "../../b")].map
        (fun p => filepath.Join p.1.toList p.2.toList)
      = ["a/b", "a", "b", "", "/a", "a/b", "a/b", "b", "../b"].map String.toList := by
  decide

/-- Examples for `strings.Fields`, `strconv.ParseInt` and the line scanner. -/
theorem parsing_test_vectors :
    strings.Fields " a  b\tc \r".toList = ["a", "b", "c"].map String.toList ∧
    ["", "0", "-0", "+5", "-", "12a", "1_0", "00012", "9223372036854775807",
      "9223372036854775808", "-9223372036854775808", "-9223372036854775809"].map
        (fun s => strconv.ParseInt s.toList)
      = [none, some 0, some 0, some 5, none, none, none, some 12, some 9223372036854775807,
        none, some (-9223372036854775808), none] ∧
    ["", "\n", "a", "a\n", "a\r\nb", "a\n\nb\n"].map
        (fun s => (scanLines false (splitBy (fun c => c = '\n') s.toList)).1)
      = [[], [""], ["a"], ["a"], ["a", "b"], ["a", "", "b"]].map
        (fun l => l.map String.toList) := by
  decide

/-! ## Lemmas on the string functions -/

theorem strings_Contains_iff (s sub : List Char) :
    strings.Contains s sub = true ↔ sub <:+: s := by
  unfold strings.Contains
  rw [List.any_eq_true]
  constructor
  · rintro ⟨t, ht, hp⟩
    rw [List.mem_tails] at ht
    rw [List.isPrefixOf_iff_prefix] at hp
    exact List.infix_iff_prefix_suffix.mpr ⟨t, hp, ht⟩
  · intro h
    obtain ⟨t, hp, hs⟩ := List.infix_iff_prefix_suffix.mp h
    exact ⟨t, (List.mem_tails _ _).mpr hs, List.isPrefixOf_iff_prefix.mpr hp⟩

theorem strings_Contains_singleton (s : List Char) (c : Char) :
    strings.Contains s [c] = true ↔ c ∈ s := by
  rw [strings_Contains_iff]
  constructor
  · rintro ⟨a, b, h⟩
    rw [← h]
    simp
  · intro h
    obtain ⟨a, b, h⟩ := List.append_of_mem h
    exact ⟨a, b, by simp [h]⟩

/-- The guard at the top of `downloadFile` fires exactly on the unsafe names. -/
theorem nameGuard_iff (name : List Char) :
    (strings.Contains name "..".toList || strings.Contains name "/".toList
      || strings.Contains name "\\".toList) = true ↔ UnsafeName name := by
  unfold UnsafeName
  simp only [Bool.or_eq_true]
  rw [show "/".toList = ['/'] from rfl, show "\\".toList = ['\\'] from rfl,
    show "..".toList = dotdot from rfl, strings_Contains_singleton,
    strings_Contains_singleton, strings_Contains_iff, or_assoc]

theorem nameGuard_false (name : List Char) (h : ¬ UnsafeName name) :
    (strings.Contains name "..".toList || strings.Contains name "/".toList
      || strings.Contains name "\\".toList) = false := by
  rw [← Bool.not_eq_true, nameGuard_iff]
  exact h

/-! ## The download engine -/

theorem stagedPath_ne_finalPath (file : GDELTFile) : stagedPath file ≠ finalPath file := by
  intro h
  have := congrArg List.length h
  simp [stagedPath] at this

/-- What `downloadFile` does once the name check, the request, the response
status, the open and the copy have all gone through. -/
theorem downloadFile_after_copy (env : Env) (fs : FS) (file : GDELTFile) (resp : Response)
    (hname : ¬ UnsafeName file.Filename)
    (hreq : env.requestOk file.URL = true)
    (hresp : env.server ⟨file.URL, (fs (stagedPath file)).map List.length⟩ = some resp)
    (hstatus : resp.StatusCode = 200 ∨ resp.StatusCode = 206)
    (hopen : env.openFails (stagedPath file) = false)
    (hcopy : env.copyFault ⟨file.URL, (fs (stagedPath file)).map List.length⟩ = none) :
    downloadFile env fs file =
      let req : Request := ⟨file.URL, (fs (stagedPath file)).map List.length⟩
      let fs1 := fs.write (stagedPath file) ((fs (stagedPath file)).getD [] ++ resp.Body)
      let ops2 := [Op.newRequest file.URL, Op.stat (stagedPath file), Op.httpDo req,
        Op.openAppend (stagedPath file), Op.write (stagedPath file) resp.Body]
      if md5Hex resp.Body ≠ file.MD5Sum then
        ⟨some (.md5Mismatch file.MD5Sum (md5Hex resp.Body)), fs1, ops2⟩
      else if env.renameFails (stagedPath file) (finalPath file) then
        ⟨some .renameTemp, fs1, ops2 ++ [.rename (stagedPath file) (finalPath file)]⟩
      else
        ⟨none, fs1.rename (stagedPath file) (finalPath file),
          ops2 ++ [.rename (stagedPath file) (finalPath file)]⟩ := by
  have hst : ¬ (resp.StatusCode ≠ 200 ∧ resp.StatusCode ≠ 206) := by
    rcases hstatus with h | h <;> simp [h]
  unfold downloadFile
  simp only [nameGuard_false _ hname, hreq, hresp, hopen, hcopy, hst, Bool.false_eq_true,
    if_false, Bool.not_true, List.cons_append, List.nil_append]

/-- C6 (name validation).  A name containing `..`, `/` or `\` makes
`downloadFile` return the invalid-filename error with no operation performed
(no request built, no network contact, no file read or written, file system
unchanged); a name containing none of the three is never rejected by the
validation step. -/
theorem downloadFile_name_validation (env : Env) (fs : FS) (file : GDELTFile) :
    (UnsafeName file.Filename →
      (downloadFile env fs file).err = some (.invalidFilename file.Filename) ∧
      (downloadFile env fs file).ops = [] ∧ (downloadFile env fs file).fs = fs) ∧
    (¬ UnsafeName file.Filename →
      ∀ name, (downloadFile env fs file).err ≠ some (.invalidFilename name)) := by
  constructor
  · intro h
    have hg := (nameGuard_iff file.Filename).mpr h
    unfold downloadFile
    rw [if_pos hg]
    exact ⟨rfl, rfl, rfl⟩
  · intro h name
    unfold downloadFile
    simp only [nameGuard_false _ h, Bool.false_eq_true, if_false]
    split
    · simp
    · split
      · simp
      · split
        · simp
        · split
          · simp
          · split
            · simp
            · split
              · simp
              · split <;> simp

/-- C6 at the name `../../etc/passwd`: rejected with nothing done. -/
theorem downloadFile_name_validation_witness :
    (downloadFile (serveAll []) emptyFS
        ⟨0, [], "http://host/x".toList, "../../etc/passwd".toList⟩).err
        = some (.invalidFilename "../../etc/passwd".toList) ∧
      (downloadFile (serveAll []) emptyFS
        ⟨0, [], "http://host/x".toList, "../../etc/passwd".toList⟩).ops = [] ∧
      (downloadFile (serveAll []) emptyFS
        ⟨0, [], "http://host/x".toList, "../../etc/passwd".toList⟩).fs = emptyFS :=
  (downloadFile_name_validation (serveAll []) emptyFS
    ⟨0, [], "http://host/x".toList, "../../etc/passwd".toList⟩).1
    (Or.inr (Or.inl (by decide)))

/-- C2 (checksum enforcement).  When the transfer reaches the digest comparison
(valid name, request built, status 200 or 206, staged file opened, body copied
without error) and the digest `downloadFile` accumulated differs from
`entry.MD5Sum`, it returns the MD5-mismatch error, performs no rename, leaves
the Final Artifact path as it was and the staged file in place with the body
appended, and the dispatcher task leaves the ledger untouched. -/
theorem checksum_mismatch_enforced (env : Env) (fs : FS) (file : GDELTFile) (resp : Response)
    (hname : ¬ UnsafeName file.Filename)
    (hreq : env.requestOk file.URL = true)
    (hresp : env.server ⟨file.URL, (fs (stagedPath file)).map List.length⟩ = some resp)
    (hstatus : resp.StatusCode = 200 ∨ resp.StatusCode = 206)
    (hopen : env.openFails (stagedPath file) = false)
    (hcopy : env.copyFault ⟨file.URL, (fs (stagedPath file)).map List.length⟩ = none)
    (hmd5 : md5Hex resp.Body ≠ file.MD5Sum) :
    (downloadFile env fs file).err = some (.md5Mismatch file.MD5Sum (md5Hex resp.Body)) ∧
    (∀ src dst, Op.rename src dst ∉ (downloadFile env fs file).ops) ∧
    (downloadFile env fs file).fs (finalPath file) = fs (finalPath file) ∧
    (downloadFile env fs file).fs (stagedPath file)
      = some ((fs (stagedPath file)).getD [] ++ resp.Body) ∧
    (∀ p, p ≠ stagedPath file → (downloadFile env fs file).fs p = fs p) ∧
    (∀ log, (downloadTask env ⟨fs, log⟩ file).log = log) := by
  have hrun := downloadFile_after_copy env fs file resp hname hreq hresp hstatus hopen hcopy
  simp only [hmd5, ne_eq, not_false_eq_true, if_true] at hrun
  refine ⟨by rw [hrun], ?_, ?_, ?_, ?_, ?_⟩
  · intro src dst
    rw [hrun]
    simp
  · rw [hrun]
    simp [FS.write, (stagedPath_ne_finalPath file).symm]
  · rw [hrun]
    simp [FS.write]
  · intro p hp
    rw [hrun]
    simp [FS.write, hp]
  · intro log
    simp [downloadTask, hrun]

/-- C2 at a concrete transfer: the manifest promises the digest of the empty
file, the server sends `abc`. -/
theorem checksum_mismatch_enforced_witness :
    (downloadFile (serveAll (bytesOf "abc")) emptyFS
        ⟨3, "d41d8cd98f00b204e9800998ecf8427e".toList, "http://host/a.zip".toList,
          "a.zip".toList⟩).err
      = some (.md5Mismatch "d41d8cd98f00b204e9800998ecf8427e".toList
          (md5Hex (bytesOf "abc"))) :=
  (checksum_mismatch_enforced (serveAll (bytesOf "abc")) emptyFS
    ⟨3, "d41d8cd98f00b204e9800998ecf8427e".toList, "http://host/a.zip".toList,
      "a.zip".toList⟩ ⟨200, bytesOf "abc"⟩
    (by unfold UnsafeName; decide) rfl rfl (Or.inl rfl) rfl rfl (by decide!)).1

/-! ## Resumed transfers and the name `.`: evaluations of `downloadFile` -/

/-- C1 at a failing input.  One byte is staged and the server ignores the range
header, answering 200 with the whole content `abc`, whose digest is the one the
manifest declares.  `downloadFile` hashes only the response, returns success
and promotes the staged file, so the Final Artifact holds `aabc`, whose digest
is not `entry.MD5Sum`. -/
theorem downloadFile_success_with_wrong_digest :
    md5Hex (bytesOf "abc") = abcEntry.MD5Sum ∧
    (downloadFile (serveAll (bytesOf "abc")) stagedOneByte abcEntry).err = none ∧
    (downloadFile (serveAll (bytesOf "abc")) stagedOneByte abcEntry).fs (finalPath abcEntry)
      = some (bytesOf "aabc") ∧
    md5Hex (bytesOf "aabc") ≠ abcEntry.MD5Sum := by
  decide!

/-- C3 at a failing input.  The Staged Artifact holds the first byte of `abc`
and the server answers the request `bytes=1-` with status 206 and `bc`.  The
digest `downloadFile` compares covers `bc` only, so it returns the MD5-mismatch
error and no Final Artifact appears, whereas the transfer without a Staged
Artifact succeeds with Final Artifact `abc`. -/
theorem downloadFile_resume_fails :
    md5Hex (bytesOf "abc") = abcEntry.MD5Sum ∧
    (rangeServer (bytesOf "abc")).server ⟨abcEntry.URL, some 1⟩ = some ⟨206, bytesOf "bc"⟩ ∧
    (downloadFile (rangeServer (bytesOf "abc")) stagedOneByte abcEntry).err
      = some (.md5Mismatch abcEntry.MD5Sum (md5Hex (bytesOf "bc"))) ∧
    (downloadFile (rangeServer (bytesOf "abc")) stagedOneByte abcEntry).fs (finalPath abcEntry)
      = none ∧
    (downloadFile (rangeServer (bytesOf "abc")) emptyFS abcEntry).err = none ∧
    (downloadFile (rangeServer (bytesOf "abc")) emptyFS abcEntry).fs (finalPath abcEntry)
      = some (bytesOf "abc") := by
  decide!

/-- C5 at a failing input.  The parser turns a URL ending in `/.` into the
entry with `Filename = "."`.  The name check lets it through, the Final
Artifact path is the download directory `gdelt_data` itself and the Staged
Artifact path is `gdelt_data.tmp`, a sibling of the download directory; neither
lies strictly inside `gdelt_data`, and `downloadFile` creates and writes
`gdelt_data.tmp`. -/
theorem downloadFile_dot_leaves_directory :
    fetchMasterFilelist (okResponse true dotLine) = .ok [dotEntry] ∧
    fetchMasterFilelist (okResponse false dotLine) = .ok [dotEntry] ∧
    finalPath dotEntry = "gdelt_data".toList ∧
    stagedPath dotEntry = "gdelt_data.tmp".toList ∧
    beneath downloadDir (finalPath dotEntry) = false ∧
    beneath downloadDir (stagedPath dotEntry) = false ∧
    (downloadFile dirRenameEnv emptyFS dotEntry).err = some .renameTemp ∧
    (downloadFile dirRenameEnv emptyFS dotEntry).ops =
      [.newRequest dotEntry.URL, .stat "gdelt_data.tmp".toList,
        .httpDo ⟨dotEntry.URL, none⟩, .openAppend "gdelt_data.tmp".toList,
        .write "gdelt_data.tmp".toList [],
        .rename "gdelt_data.tmp".toList "gdelt_data".toList] ∧
    (downloadFile dirRenameEnv emptyFS dotEntry).fs "gdelt_data.tmp".toList = some [] := by
  decide!

/-! ## Splitting and joining -/

theorem splitBy_ne_nil (p : Char → Bool) (s : List Char) : splitBy p s ≠ [] := by
  induction s with
  | nil => simp [splitBy]
  | cons c cs ih =>
    unfold splitBy
    split
    · simp
    · split <;> simp

theorem splitBy_cons_sep (p : Char → Bool) (c : Char) (cs : List Char) (h : p c = true) :
    splitBy p (c :: cs) = [] :: splitBy p cs := by
  simp [splitBy, h]

theorem splitBy_cons_other (p : Char → Bool) (c : Char) (cs : List Char) (h : p c = false) :
    ∃ hd tl, splitBy p cs = hd :: tl ∧ splitBy p (c :: cs) = (c :: hd) :: tl := by
  cases hcs : splitBy p cs with
  | nil => exact absurd hcs (splitBy_ne_nil p cs)
  | cons hd tl =>
    refine ⟨hd, tl, rfl, ?_⟩
    simp [splitBy, h, hcs]

/-- No piece contains a separator. -/
theorem splitBy_piece_free (p : Char → Bool) (s : List Char) :
    ∀ piece ∈ splitBy p s, ∀ c ∈ piece, p c = false := by
  induction s with
  | nil => simp [splitBy]
  | cons c cs ih =>
    by_cases h : p c = true
    · rw [splitBy_cons_sep p c cs h]
      intro piece hp
      rcases List.mem_cons.mp hp with rfl | hp
      · simp
      · exact ih piece hp
    · have h : p c = false := by simpa using h
      obtain ⟨hd, tl, h1, h2⟩ := splitBy_cons_other p c cs h
      rw [h2]
      rw [h1] at ih
      intro piece hp
      rcases List.mem_cons.mp hp with rfl | hp
      · intro x hx
        rcases List.mem_cons.mp hx with rfl | hx
        · exact h
        · exact ih hd (List.mem_cons_self _ _) x hx
      · exact ih piece (List.mem_cons_of_mem _ hp)

/-- A text without separators is a single piece. -/
theorem splitBy_of_free (p : Char → Bool) (s : List Char) (h : ∀ c ∈ s, p c = false) :
    splitBy p s = [s] := by
  induction s with
  | nil => rfl
  | cons c cs ih =>
    have hc : p c = false := h c (List.mem_cons_self _ _)
    have hcs := ih (fun x hx => h x (List.mem_cons_of_mem _ hx))
    simp [splitBy, hc, hcs]

/-- Splitting distributes over a separator. -/
theorem splitBy_append (p : Char → Bool) (a b : List Char) (sep : Char) (h : p sep = true) :
    splitBy p (a ++ sep :: b) = splitBy p a ++ splitBy p b := by
  induction a with
  | nil => simp [splitBy, h]
  | cons c cs ih =>
    by_cases hc : p c = true
    · simp [splitBy, hc, ih]
    · have hc : p c = false := by simpa using hc
      obtain ⟨hd, tl, h1, h2⟩ := splitBy_cons_other p c cs hc
      have h3 : splitBy p (c :: (cs ++ sep :: b)) = (c :: hd) :: (tl ++ splitBy p b) := by
        obtain ⟨hd2, tl2, h4, h5⟩ := splitBy_cons_other p c (cs ++ sep :: b) hc
        rw [h5]
        rw [ih, h1] at h4
        simp only [List.cons_append, List.cons.injEq] at h4
        rw [← h4.1, ← h4.2]
      rw [List.cons_append, h3, h2]
      rfl

/-- Joining the pieces with the separator gives the text back. -/
theorem joinSep_splitBy (s : List Char) : joinSep (splitBy (fun c => c = '/') s) = s := by
  induction s with
  | nil => rfl
  | cons c cs ih =>
    by_cases hc : c = '/'
    · subst hc
      rw [splitBy_cons_sep _ _ _ (by simp)]
      cases hcs : splitBy (fun c => decide (c = '/')) cs with
      | nil => exact absurd hcs (splitBy_ne_nil _ cs)
      | cons hd tl =>
        rw [hcs] at ih
        simp [joinSep, ih]
    · obtain ⟨hd, tl, h1, h2⟩ := splitBy_cons_other (fun c => decide (c = '/')) c cs (by simpa using hc)
      rw [h2]
      rw [h1] at ih
      cases tl with
      | nil =>
        simp only [joinSep] at ih ⊢
        rw [ih]
      | cons d tl =>
        simp only [joinSep] at ih ⊢
        rw [← ih]
        rfl

theorem joinSep_cons (c : List Char) (cs : List (List Char)) (h : cs ≠ []) :
    joinSep (c :: cs) = c ++ '/' :: joinSep cs := by
  cases cs with
  | nil => exact absurd rfl h
  | cons d ds => rfl

/-- Splitting a join of separator-free components gives the components back. -/
theorem splitBy_joinSep (cs : List (List Char)) (hne : cs ≠ [])
    (hfree : ∀ c ∈ cs, ∀ x ∈ c, x ≠ '/') :
    splitBy (fun c => c = '/') (joinSep cs) = cs := by
  induction cs with
  | nil => exact absurd rfl hne
  | cons c cs ih =>
    have hc : ∀ x ∈ c, (fun c => decide (c = '/')) x = false := by
      intro x hx
      simpa using hfree c (List.mem_cons_self _ _) x hx
    cases cs with
    | nil =>
      simp only [joinSep]
      exact splitBy_of_free _ c hc
    | cons d ds =>
      rw [joinSep_cons c (d :: ds) (by simp), splitBy_append _ _ _ _ (by simp),
        splitBy_of_free _ c hc,
        ih (by simp) (fun y hy => hfree y (List.mem_cons_of_mem _ hy))]
      rfl

/-! ## The shape of cleaned paths -/

theorem ordinary_dotdot : ordinary dotdot = false := by decide

theorem ordinary_iff (c : List Char) :
    ordinary c = true ↔ c ≠ [] ∧ c ≠ ['.'] ∧ c ≠ dotdot := by
  simp [ordinary, and_assoc]

theorem cleanComps_of_all_dotdot (l : List (List Char)) (h : ∀ c ∈ l, c = dotdot) :
    cleanComps l = true := by
  induction l with
  | nil => rfl
  | cons c cs ih =>
    simp [cleanComps, h c (List.mem_cons_self _ _),
      ih (fun x hx => h x (List.mem_cons_of_mem _ hx))]

theorem cleanComps_of_all_ordinary (l : List (List Char)) (h : ∀ c ∈ l, ordinary c = true) :
    cleanComps l = true := by
  cases l with
  | nil => rfl
  | cons c cs =>
    have h1 := h c (List.mem_cons_self _ _)
    have h2 : ∀ x ∈ cs, ordinary x = true := fun x hx => h x (List.mem_cons_of_mem _ hx)
    simp only [cleanComps, h1, Bool.true_and, Bool.or_eq_true, List.all_eq_true]
    exact Or.inr h2

theorem cleanComps_snoc_ordinary (l : List (List Char)) (c : List Char)
    (hl : cleanComps l = true) (hc : ordinary c = true) : cleanComps (l ++ [c]) = true := by
  induction l with
  | nil => simp [cleanComps, hc]
  | cons d ds ih =>
    simp only [cleanComps, Bool.or_eq_true, Bool.and_eq_true, decide_eq_true_eq] at hl
    rcases hl with ⟨hd, hds⟩ | ⟨hd, hds⟩
    · simp [cleanComps, hd, ih hds]
    · simp only [List.cons_append, cleanComps, Bool.or_eq_true, Bool.and_eq_true]
      right
      refine ⟨hd, ?_⟩
      show (ds ++ [c]).all ordinary = true
      rw [List.all_append, hds]
      simp [hc]

theorem stackOK_reverse (s : List (List Char)) (h : stackOK s = true) :
    cleanComps s.reverse = true := by
  induction s with
  | nil => rfl
  | cons c rest ih =>
    simp only [stackOK, Bool.or_eq_true, Bool.and_eq_true, decide_eq_true_eq] at h
    rw [List.reverse_cons]
    rcases h with ⟨hc, hrest⟩ | ⟨hc, hrest⟩
    · exact cleanComps_snoc_ordinary _ _ (ih hrest) hc
    · apply cleanComps_of_all_dotdot
      intro x hx
      rcases List.mem_append.mp hx with hx | hx
      · have := List.all_eq_true.mp hrest x (List.mem_reverse.mp hx)
        simpa using this
      · simpa [hc] using hx

/-- In a cleaned component list, everything after a component other than `..`
is ordinary. -/
theorem cleanComps_after (l pre post : List (List Char)) (x : List Char)
    (hl : cleanComps l = true) (hsplit : l = pre ++ x :: post) (hx : x ≠ dotdot) :
    ∀ c ∈ post, ordinary c = true := by
  induction pre generalizing l with
  | nil =>
    subst hsplit
    simp only [List.nil_append, cleanComps, Bool.or_eq_true, Bool.and_eq_true,
      decide_eq_true_eq] at hl
    rcases hl with ⟨h1, _⟩ | ⟨_, h2⟩
    · exact absurd h1 hx
    · exact fun c hc => List.all_eq_true.mp h2 c hc
  | cons y pre ih =>
    subst hsplit
    simp only [List.cons_append, cleanComps, Bool.or_eq_true, Bool.and_eq_true,
      decide_eq_true_eq] at hl
    rcases hl with ⟨_, h2⟩ | ⟨_, h2⟩
    · exact ih _ h2 rfl
    · intro c hc
      exact List.all_eq_true.mp h2 c (by simp [hc])

theorem cleanStep_relative_ok (s : List (List Char)) (c : List Char) (h : stackOK s = true) :
    stackOK (cleanStep false s c) = true := by
  unfold cleanStep
  by_cases h1 : c = [] ∨ c = ['.']
  · rw [if_pos h1]
    exact h
  · rw [if_neg h1]
    by_cases h2 : c = dotdot
    · rw [if_pos h2]
      simp only [Bool.false_eq_true, if_false]
      cases s with
      | nil => decide
      | cons top rest =>
        simp only [stackOK, Bool.or_eq_true, Bool.and_eq_true, decide_eq_true_eq] at h
        by_cases h3 : top = dotdot
        · simp only [h3, if_true]
          rcases h with ⟨ho, _⟩ | ⟨_, hr⟩
          · rw [h3, ordinary_dotdot] at ho
            exact absurd ho (by simp)
          · simp only [stackOK, ordinary_dotdot, Bool.false_and, Bool.false_or, List.all_cons,
              decide_True, Bool.true_and]
            exact hr
        · simp only [h3, if_false]
          rcases h with ⟨_, hr⟩ | ⟨ht, _⟩
          · exact hr
          · exact absurd ht h3
    · rw [if_neg h2]
      have ho : ordinary c = true := by
        rw [ordinary_iff]
        exact ⟨fun h => h1 (Or.inl h), fun h => h1 (Or.inr h), h2⟩
      simp [stackOK, ho, h]

theorem cleanStep_rooted_ok (s : List (List Char)) (c : List Char)
    (h : ∀ d ∈ s, ordinary d = true) : ∀ d ∈ cleanStep true s c, ordinary d = true := by
  unfold cleanStep
  by_cases h1 : c = [] ∨ c = ['.']
  · rw [if_pos h1]
    exact h
  · rw [if_neg h1]
    by_cases h2 : c = dotdot
    · rw [if_pos h2]
      simp only [if_true]
      intro d hd
      exact h d (List.mem_of_mem_tail hd)
    · rw [if_neg h2]
      have ho : ordinary c = true := by
        rw [ordinary_iff]
        exact ⟨fun h => h1 (Or.inl h), fun h => h1 (Or.inr h), h2⟩
      intro d hd
      rcases List.mem_cons.mp hd with rfl | hd
      · exact ho
      · exact h d hd

/-- Every component on the stack was a component of the input or is `..`. -/
theorem cleanStep_mem (rooted : Bool) (s : List (List Char)) (c d : List Char)
    (hd : d ∈ cleanStep rooted s c) : d ∈ s ∨ d = c := by
  unfold cleanStep at hd
  split at hd
  · exact Or.inl hd
  · split at hd
    · rename_i hc
      split at hd
      · exact Or.inl (List.mem_of_mem_tail hd)
      · split at hd
        · simp only [List.mem_singleton] at hd
          exact Or.inr (hd.trans hc.symm)
        · split at hd
          · rcases List.mem_cons.mp hd with h | h
            · exact Or.inr (h.trans hc.symm)
            · exact Or.inl h
          · exact Or.inl (List.mem_cons_of_mem _ hd)
    · rcases List.mem_cons.mp hd with h | h
      · exact Or.inr h
      · exact Or.inl h

theorem foldl_cleanStep_relative_ok (cs s : List (List Char)) (h : stackOK s = true) :
    stackOK (cs.foldl (cleanStep false) s) = true := by
  induction cs generalizing s with
  | nil => exact h
  | cons c cs ih => exact ih _ (cleanStep_relative_ok s c h)

theorem foldl_cleanStep_rooted_ok (cs s : List (List Char)) (h : ∀ d ∈ s, ordinary d = true) :
    ∀ d ∈ cs.foldl (cleanStep true) s, ordinary d = true := by
  induction cs generalizing s with
  | nil => exact h
  | cons c cs ih => exact ih _ (cleanStep_rooted_ok s c h)

theorem foldl_cleanStep_mem (rooted : Bool) (cs s : List (List Char)) (d : List Char)
    (hd : d ∈ cs.foldl (cleanStep rooted) s) : d ∈ s ∨ d ∈ cs := by
  induction cs generalizing s with
  | nil => exact Or.inl hd
  | cons c cs ih =>
    rcases ih _ hd with h | h
    · rcases cleanStep_mem rooted s c d h with h | h
      · exact Or.inl h
      · exact Or.inr (by simp [h])
    · exact Or.inr (List.mem_cons_of_mem _ h)

/-- The result of `filepath.Clean` is the root `/`, or its components are such
that everything after a component other than `..` is ordinary. -/
theorem Clean_shape (path : List Char) :
    filepath.Clean path = ['/'] ∨
    ∀ pre x post, splitBy (fun c => c = '/') (filepath.Clean path) = pre ++ x :: post →
      x ≠ dotdot → ∀ c ∈ post, ordinary c = true := by
  have hdot : ∀ pre x post, splitBy (fun c => decide (c = '/')) ['.'] = pre ++ x :: post →
      x ≠ dotdot → ∀ c ∈ post, ordinary c = true := by
    intro pre x post h _
    have h1 : splitBy (fun c => decide (c = '/')) ['.'] = [['.']] := by decide
    rw [h1] at h
    have hlen := congrArg List.length h
    simp at hlen
    have : post = [] := List.length_eq_zero.mp (by omega)
    simp [this]
  unfold filepath.Clean
  by_cases hp : path = []
  · rw [if_pos hp]
    exact Or.inr hdot
  · rw [if_neg hp]
    have hfree : ∀ rooted : Bool, ∀ d ∈ (splitBy (fun c => decide (c = '/')) path).foldl
        (cleanStep rooted) [], ∀ x ∈ d, x ≠ '/' := by
      intro rooted d hd x hx
      rcases foldl_cleanStep_mem rooted _ [] d hd with h | h
      · simp at h
      · simpa using splitBy_piece_free _ path d h x hx
    by_cases hr : path.head? = some '/'
    · simp only [hr, decide_True, if_true]
      have hall := foldl_cleanStep_rooted_ok (splitBy (fun c => decide (c = '/')) path) []
        (by simp)
      cases hs : ((splitBy (fun c => decide (c = '/')) path).foldl (cleanStep true) []).reverse with
      | nil => exact Or.inl rfl
      | cons c cs =>
        right
        intro pre x post hsplit _ y hy
        have hfree2 : ∀ d ∈ c :: cs, ∀ x ∈ d, x ≠ '/' := by
          intro d hd
          rw [← hs] at hd
          exact hfree true d (List.mem_reverse.mp hd)
        rw [splitBy_cons_sep _ _ _ (by simp), splitBy_joinSep (c :: cs) (by simp) hfree2] at hsplit
        have hy2 : y ∈ c :: cs := by
          cases pre with
          | nil =>
            simp only [List.nil_append, List.cons.injEq] at hsplit
            rw [hsplit.2]
            exact hy
          | cons p pre =>
            simp only [List.cons_append, List.cons.injEq] at hsplit
            rw [hsplit.2]
            simp [hy]
        rw [← hs] at hy2
        exact hall y (List.mem_reverse.mp hy2)
    · simp only [hr, decide_False, Bool.false_eq_true, if_false]
      by_cases hs : (splitBy (fun c => decide (c = '/')) path).foldl (cleanStep false) [] = []
      · rw [if_pos hs]
        exact Or.inr hdot
      · rw [if_neg hs]
        right
        intro pre x post hsplit hx
        have hok := stackOK_reverse _ (foldl_cleanStep_relative_ok
          (splitBy (fun c => decide (c = '/')) path) [] rfl)
        rw [splitBy_joinSep _ (by simpa using hs)
          (fun d hd => hfree false d (List.mem_reverse.mp hd))] at hsplit
        exact cleanComps_after _ pre post x hok hsplit hx

theorem joinSep_eq_nil (cs : List (List Char)) (h : joinSep cs = []) :
    cs = [] ∨ cs = [[]] := by
  match cs with
  | [] => exact Or.inl rfl
  | [c] =>
    simp only [joinSep] at h
    exact Or.inr (by rw [h])
  | c :: d :: ds => simp [joinSep] at h

/-- The result of `filepath.Clean` is never empty. -/
theorem Clean_ne_nil (path : List Char) : filepath.Clean path ≠ [] := by
  unfold filepath.Clean
  by_cases hp : path = []
  · rw [if_pos hp]
    simp
  · rw [if_neg hp]
    by_cases hr : path.head? = some '/'
    · simp [hr]
    · simp only [hr, decide_False, Bool.false_eq_true, if_false]
      by_cases hs : (splitBy (fun c => decide (c = '/')) path).foldl (cleanStep false) [] = []
      · rw [if_pos hs]
        simp
      · rw [if_neg hs]
        intro h
        have hok := stackOK_reverse _ (foldl_cleanStep_relative_ok
          (splitBy (fun c => decide (c = '/')) path) [] rfl)
        rcases joinSep_eq_nil _ h with h1 | h1
        · exact hs (by simpa using h1)
        · rw [h1] at hok
          exact absurd hok (by decide)

theorem HasPrefix_iff (s p : List Char) :
    strings.HasPrefix s p = true ↔ ∃ rest, s = p ++ rest := by
  unfold strings.HasPrefix
  rw [List.isPrefixOf_iff_prefix]
  constructor
  · rintro ⟨t, ht⟩
    exact ⟨t, ht.symm⟩
  · rintro ⟨t, ht⟩
    exact ⟨t, ht.symm⟩

/-- What `beneath` says. -/
theorem beneath_iff (root p : List Char) :
    beneath root p = true ↔
      ∃ rest, p = root ++ '/' :: rest ∧
        ∀ c ∈ splitBy (fun c => c = '/') rest, ordinary c = true := by
  unfold beneath
  rw [Bool.and_eq_true, HasPrefix_iff, List.all_eq_true]
  constructor
  · rintro ⟨⟨rest, hrest⟩, hall⟩
    refine ⟨rest, by simpa using hrest, ?_⟩
    have : List.drop (root.length + 1) p = rest := by
      rw [hrest, List.append_assoc, List.drop_append_eq_append_drop]
      simp
    rw [this] at hall
    exact hall
  · rintro ⟨rest, hrest, hall⟩
    refine ⟨⟨rest, by simpa using hrest⟩, ?_⟩
    have : List.drop (root.length + 1) p = rest := by
      rw [hrest, List.drop_append_eq_append_drop]
      simp
    rw [this]
    exact hall

/-- The heart of the zip-slip guard: a cleaned path that starts with a cleaned
root and a separator lies strictly beneath that root, unless the root ends in
`..`. -/
theorem Clean_prefix_beneath (dest q : List Char)
    (hcheck : strings.HasPrefix (filepath.Clean q) (filepath.Clean dest ++ ['/']) = true)
    (hdest : endsInDotDot (filepath.Clean dest) = false) :
    beneath (filepath.Clean dest) (filepath.Clean q) = true := by
  obtain ⟨rest, hrest⟩ := (HasPrefix_iff _ _).mp hcheck
  have hrest2 : filepath.Clean q = filepath.Clean dest ++ '/' :: rest := by simpa using hrest
  rw [beneath_iff]
  refine ⟨rest, hrest2, ?_⟩
  rcases Clean_shape q with hroot | hshape
  · rw [hroot] at hrest2
    have hlen := congrArg List.length hrest2
    simp at hlen
    have : filepath.Clean dest = [] := List.length_eq_zero.mp (by omega)
    exact absurd this (Clean_ne_nil dest)
  · have hsplit : splitBy (fun c => decide (c = '/')) (filepath.Clean q)
        = splitBy (fun c => decide (c = '/')) (filepath.Clean dest)
          ++ splitBy (fun c => decide (c = '/')) rest := by
      rw [hrest2, splitBy_append _ _ _ _ (by simp)]
    rcases List.eq_nil_or_concat (splitBy (fun c => decide (c = '/')) (filepath.Clean dest))
      with h | ⟨init, last, h⟩
    · exact absurd h (splitBy_ne_nil _ _)
    · have hlast : last ≠ dotdot := by
        intro hl
        have : endsInDotDot (filepath.Clean dest) = true := by
          unfold endsInDotDot
          rw [h, hl]
          simp
        rw [hdest] at this
        exact absurd this (by simp)
      rw [h] at hsplit
      exact hshape init last _ (by rw [hsplit]; simp) hlast

/-- Soundness of the zip-slip guard of `unzipFile`. -/
theorem zipSlipCheck_sound (dest name : List Char)
    (hdest : endsInDotDot (filepath.Clean dest) = false)
    (hcheck : zipSlipCheck dest (filepath.Join dest name) = true) :
    beneath (filepath.Clean dest) (filepath.Join dest name) = true := by
  unfold zipSlipCheck at hcheck
  unfold filepath.Join at hcheck ⊢
  by_cases ha : dest ≠ []
  · rw [if_pos ha] at hcheck ⊢
    exact Clean_prefix_beneath dest _ hcheck hdest
  · rw [if_neg ha] at hcheck ⊢
    by_cases hb : name ≠ []
    · rw [if_pos hb] at hcheck ⊢
      exact Clean_prefix_beneath dest _ hcheck hdest
    · rw [if_neg hb] at hcheck
      obtain ⟨rest, hrest⟩ := (HasPrefix_iff _ _).mp hcheck
      simp at hrest

/-- The guard accepts exactly the joined paths strictly beneath the root. -/
theorem zipSlipCheck_iff_beneath (dest name : List Char)
    (hdest : endsInDotDot (filepath.Clean dest) = false) :
    zipSlipCheck dest (filepath.Join dest name) = true ↔
      beneath (filepath.Clean dest) (filepath.Join dest name) = true := by
  constructor
  · exact zipSlipCheck_sound dest name hdest
  · intro h
    unfold beneath at h
    rw [Bool.and_eq_true] at h
    exact h.1

/-! ## `filepath.Clean` fixes the directory prefixes of a cleaned path -/

/-- The three forms of a cleaned path: `.`, a rooted path of ordinary
components, or a relative path of `..` components followed by ordinary ones. -/
theorem Clean_cases (path : List Char) :
    filepath.Clean path = ['.'] ∨
    (∃ os, (∀ c ∈ os, ordinary c = true) ∧ (∀ c ∈ os, ∀ x ∈ c, x ≠ '/') ∧
      filepath.Clean path = '/' :: joinSep os) ∨
    (∃ l, l ≠ [] ∧ cleanComps l = true ∧ (∀ c ∈ l, ∀ x ∈ c, x ≠ '/') ∧
      filepath.Clean path = joinSep l) := by
  unfold filepath.Clean
  by_cases hp : path = []
  · rw [if_pos hp]
    exact Or.inl rfl
  · rw [if_neg hp]
    have hfree : ∀ rooted : Bool, ∀ d ∈ ((splitBy (fun c => decide (c = '/')) path).foldl
        (cleanStep rooted) []).reverse, ∀ x ∈ d, x ≠ '/' := by
      intro rooted d hd x hx
      rcases foldl_cleanStep_mem rooted _ [] d (List.mem_reverse.mp hd) with h | h
      · simp at h
      · simpa using splitBy_piece_free _ path d h x hx
    by_cases hr : path.head? = some '/'
    · simp only [hr, decide_True, if_true]
      right
      left
      refine ⟨_, ?_, hfree true, rfl⟩
      intro c hc
      exact foldl_cleanStep_rooted_ok (splitBy (fun c => decide (c = '/')) path) []
        (by simp) c (List.mem_reverse.mp hc)
    · simp only [hr, decide_False, Bool.false_eq_true, if_false]
      by_cases hs : (splitBy (fun c => decide (c = '/')) path).foldl (cleanStep false) [] = []
      · rw [if_pos hs]
        exact Or.inl rfl
      · rw [if_neg hs]
        right
        right
        exact ⟨_, by simpa using hs, stackOK_reverse _ (foldl_cleanStep_relative_ok
          (splitBy (fun c => decide (c = '/')) path) [] rfl), hfree false, rfl⟩

theorem cleanComps_append_left (a b : List (List Char)) (h : cleanComps (a ++ b) = true) :
    cleanComps a = true := by
  induction a with
  | nil => rfl
  | cons c cs ih =>
    simp only [List.cons_append, cleanComps, Bool.or_eq_true, Bool.and_eq_true,
      decide_eq_true_eq] at h ⊢
    rcases h with ⟨h1, h2⟩ | ⟨h1, h2⟩
    · exact Or.inl ⟨h1, ih h2⟩
    · right
      refine ⟨h1, ?_⟩
      change (cs ++ b).all ordinary = true at h2
      rw [List.all_append, Bool.and_eq_true] at h2
      exact h2.1

theorem foldl_cleanStep_ordinary (rooted : Bool) (l s : List (List Char))
    (h : ∀ c ∈ l, ordinary c = true) :
    l.foldl (cleanStep rooted) s = l.reverse ++ s := by
  induction l generalizing s with
  | nil => rfl
  | cons c cs ih =>
    have hc := (ordinary_iff c).mp (h c (List.mem_cons_self _ _))
    have hstep : cleanStep rooted s c = c :: s := by
      unfold cleanStep
      rw [if_neg (by simp [hc.1, hc.2.1]), if_neg hc.2.2]
    rw [List.foldl_cons, hstep, ih _ (fun x hx => h x (List.mem_cons_of_mem _ hx))]
    simp

theorem foldl_cleanStep_cleanComps (l s : List (List Char)) (hl : cleanComps l = true)
    (hs : ∀ c ∈ s, c = dotdot) :
    l.foldl (cleanStep false) s = l.reverse ++ s := by
  induction l generalizing s with
  | nil => rfl
  | cons c cs ih =>
    simp only [cleanComps, Bool.or_eq_true, Bool.and_eq_true, decide_eq_true_eq] at hl
    rcases hl with ⟨h1, h2⟩ | ⟨h1, h2⟩
    · have hstep : cleanStep false s c = c :: s := by
        subst h1
        unfold cleanStep
        rw [if_neg (by decide), if_pos rfl]
        cases s with
        | nil => rfl
        | cons top rest =>
          have := hs top (List.mem_cons_self _ _)
          simp [this]
      rw [List.foldl_cons, hstep, ih _ h2 (by
        intro x hx
        rcases List.mem_cons.mp hx with h | h
        · exact h.trans h1
        · exact hs x h)]
      simp
    · exact foldl_cleanStep_ordinary false (c :: cs) s (by
        intro x hx
        rcases List.mem_cons.mp hx with h | h
        · rw [h]; exact h1
        · exact List.all_eq_true.mp h2 x h)

/-- Cutting a cleaned path at a separator leaves a path that `filepath.Clean`
does not change. -/
theorem Clean_prefix_fixed (q x r : List Char) (hx : x ≠ [])
    (h : filepath.Clean q = x ++ '/' :: r) : filepath.Clean x = x := by
  rcases Clean_cases q with h1 | ⟨os, hord, hfree, h2⟩ | ⟨l, hne, hcl, hfree, h3⟩
  · rw [h1] at h
    have hlen := congrArg List.length h
    simp at hlen
    exact absurd (List.length_eq_zero.mp (by omega)) hx
  · rw [h2] at h
    cases x with
    | nil => exact absurd rfl hx
    | cons a x2 =>
      simp only [List.cons_append, List.cons.injEq] at h
      obtain ⟨ha, hj⟩ := h
      subst ha
      by_cases hx2 : x2 = []
      · subst hx2
        decide
      · have hos : os ≠ [] := by
          intro hos
          rw [hos] at hj
          simp [joinSep] at hj
        have hsp : os = splitBy (fun c => decide (c = '/')) x2
            ++ splitBy (fun c => decide (c = '/')) r := by
          rw [← splitBy_append (fun c => decide (c = '/')) x2 r '/' (by simp), ← hj,
            splitBy_joinSep os hos hfree]
        have hx2j := joinSep_splitBy x2
        have hord2 : ∀ c ∈ splitBy (fun c => decide (c = '/')) x2, ordinary c = true := by
          intro c hc
          exact hord c (by rw [hsp]; simp [hc])
        unfold filepath.Clean
        rw [if_neg (by simp)]
        simp only [List.head?_cons, decide_True, if_true]
        rw [splitBy_cons_sep _ _ _ (by simp), List.foldl_cons]
        have h0 : cleanStep true [] [] = [] := by decide
        rw [h0, foldl_cleanStep_ordinary true _ [] hord2]
        simp [hx2j]
  · rw [h3] at h
    have hsp : l = splitBy (fun c => decide (c = '/')) x
        ++ splitBy (fun c => decide (c = '/')) r := by
      rw [← splitBy_append (fun c => decide (c = '/')) x r '/' (by simp), ← h,
        splitBy_joinSep l hne hfree]
    have hcl2 : cleanComps (splitBy (fun c => decide (c = '/')) x) = true := by
      rw [hsp] at hcl
      exact cleanComps_append_left _ _ hcl
    have hxj := joinSep_splitBy x
    have hhead : x.head? ≠ some '/' := by
      cases x with
      | nil => exact absurd rfl hx
      | cons a x2 =>
        simp only [List.head?_cons, ne_eq, Option.some.injEq]
        intro ha
        subst ha
        rw [splitBy_cons_sep _ _ _ (by simp)] at hcl2
        simp [cleanComps, ordinary, dotdot] at hcl2
    unfold filepath.Clean
    rw [if_neg hx]
    simp only [hhead, decide_False, Bool.false_eq_true, if_false]
    rw [foldl_cleanStep_cleanComps _ [] hcl2 (by simp)]
    simp [splitBy_ne_nil, hxj]

/-- A trailing separator does not change the cleaned path. -/
theorem Clean_trailing_slash (x : List Char) (hx : x ≠ []) :
    filepath.Clean (x ++ ['/']) = filepath.Clean x := by
  unfold filepath.Clean
  rw [if_neg (by simp), if_neg hx]
  have hh : (x ++ ['/']).head? = x.head? := by
    cases x with
    | nil => exact absurd rfl hx
    | cons a x2 => rfl
  have hf : ∀ rooted : Bool, (splitBy (fun c => decide (c = '/')) (x ++ ['/'])).foldl
      (cleanStep rooted) [] = (splitBy (fun c => decide (c = '/')) x).foldl
      (cleanStep rooted) [] := by
    intro rooted
    rw [splitBy_append _ _ _ _ (by simp), List.foldl_append]
    simp [splitBy, cleanStep]
  simp only [hh, hf]

/-- What `filepath.Dir` cuts off: the text after the last separator. -/
theorem dropLastComponent (x last : List Char) (h : ∀ c ∈ last, c ≠ '/') :
    ((x ++ '/' :: last).reverse.dropWhile (fun c => c ≠ '/')).reverse = x ++ ['/'] := by
  have h1 : (x ++ '/' :: last).reverse = last.reverse ++ ('/' :: x.reverse) := by simp
  rw [h1, List.dropWhile_append_of_pos (by
    intro c hc
    simpa using h c (List.mem_reverse.mp hc))]
  simp [List.dropWhile]

/-- The directory of a cleaned path `x/last` is `x`. -/
theorem Dir_of_clean (q x last : List Char) (hx : x ≠ []) (hlast : ∀ c ∈ last, c ≠ '/')
    (h : filepath.Clean q = x ++ '/' :: last) :
    filepath.Dir (filepath.Clean q) = x := by
  unfold filepath.Dir
  rw [h, dropLastComponent x last hlast, Clean_trailing_slash x hx]
  exact Clean_prefix_fixed q x last hx h

/-- Every text has no separator or splits at its last separator. -/
theorem split_at_last_slash (s : List Char) :
    (∀ c ∈ s, c ≠ '/') ∨ ∃ a b, s = a ++ '/' :: b ∧ ∀ c ∈ b, c ≠ '/' := by
  induction s with
  | nil => left; simp
  | cons c s ih =>
    rcases ih with h | ⟨a, b, h1, h2⟩
    · by_cases hc : c = '/'
      · right
        exact ⟨[], s, by simp [hc], h⟩
      · left
        intro d hd
        rcases List.mem_cons.mp hd with h3 | h3
        · rw [h3]; exact hc
        · exact h d h3
    · right
      exact ⟨c :: a, b, by simp [h1], h2⟩

/-- The parent directory that `unzipFile` creates for a file entry beneath the
root is the root itself or lies beneath it. -/
theorem Dir_beneath (dest q : List Char)
    (h : beneath (filepath.Clean dest) (filepath.Clean q) = true) :
    filepath.Dir (filepath.Clean q) = filepath.Clean dest ∨
      beneath (filepath.Clean dest) (filepath.Dir (filepath.Clean q)) = true := by
  obtain ⟨rest, hrest, hord⟩ := (beneath_iff _ _).mp h
  rcases split_at_last_slash rest with hfree | ⟨a, b, hab, hb⟩
  · left
    exact Dir_of_clean q _ rest (Clean_ne_nil dest) hfree hrest
  · right
    have hq : filepath.Clean q = (filepath.Clean dest ++ '/' :: a) ++ '/' :: b := by
      rw [hrest, hab]
      simp
    rw [Dir_of_clean q _ b (by simp) hb hq, beneath_iff]
    refine ⟨a, rfl, ?_⟩
    intro c hc
    apply hord c
    rw [hab, splitBy_append _ _ _ _ (by simp)]
    simp [hc]

/-! ## Containment of cleaned paths -/

theorem inside_test_vectors :
    [(".", "a.txt"), ("/", "/a"), ("out", "out/a/b"), ("..", "../a"), ("/x", "/x/y"),
      (".", "."), (".", "../a"), ("..", "../../a"), ("out", "out"), ("out", "other/a"),
      ("out", "outer"), ("a", "/a/b"), ("/", "/")].map
        (fun r => inside r.1.toList r.2.toList)
      = [true, true, true, true, true,
        false, false, false, false, false, false, false, false] := by
  decide

theorem joinSep_append (a b : List (List Char)) (ha : a ≠ []) (hb : b ≠ []) :
    joinSep (a ++ b) = joinSep a ++ '/' :: joinSep b := by
  induction a with
  | nil => exact absurd rfl ha
  | cons c cs ih =>
    by_cases hcs : cs = []
    · subst hcs
      rw [List.singleton_append, joinSep_cons c b hb]
      rfl
    · rw [List.cons_append, joinSep_cons c (cs ++ b) (by simp [hcs]), ih hcs,
        joinSep_cons c cs hcs]
      simp

theorem cleanComps_mem (l : List (List Char)) (h : cleanComps l = true) :
    ∀ c ∈ l, c = dotdot ∨ ordinary c = true := by
  induction l with
  | nil => simp
  | cons d ds ih =>
    simp only [cleanComps, Bool.or_eq_true, Bool.and_eq_true, decide_eq_true_eq] at h
    intro c hc
    rcases h with ⟨h1, h2⟩ | ⟨h1, h2⟩
    · rcases List.mem_cons.mp hc with hc | hc
      · exact Or.inl (hc.trans h1)
      · exact ih h2 c hc
    · rcases List.mem_cons.mp hc with hc | hc
      · rw [hc]; exact Or.inr h1
      · exact Or.inr (List.all_eq_true.mp h2 c hc)

theorem filter_steps_eq (l : List (List Char))
    (h : ∀ c ∈ l, c = dotdot ∨ ordinary c = true) :
    l.filter (fun c => c ≠ [] && c ≠ ['.']) = l := by
  rw [List.filter_eq_self]
  intro c hc
  rcases h c hc with h1 | h1
  · rw [h1]
    decide
  · have := (ordinary_iff c).mp h1
    simp [this.1, this.2.1]

/-- A cleaned path is determined by its steps. -/
theorem Clean_render (x : List Char) :
    filepath.Clean x = render (pathComps (filepath.Clean x)).1 (pathComps (filepath.Clean x)).2 := by
  rcases Clean_cases x with h1 | ⟨os, hord, hfree, h2⟩ | ⟨l, hne, hcl, hfree, h3⟩
  · rw [h1]
    decide
  · rw [h2]
    by_cases hos : os = []
    · subst hos
      decide
    · have hsplit : splitBy (fun c => decide (c = '/')) ('/' :: joinSep os) = [] :: os := by
        rw [splitBy_cons_sep _ _ _ (by simp), splitBy_joinSep os hos hfree]
      have hfil : ([] :: os).filter (fun c => c ≠ [] && c ≠ ['.']) = os := by
        rw [List.filter_cons_of_neg (by simp)]
        exact filter_steps_eq os (fun c hc => Or.inr (hord c hc))
      unfold pathComps render
      simp only [hsplit, hfil, List.head?_cons, decide_True, if_true]
  · rw [h3]
    have hsplit := splitBy_joinSep l hne hfree
    have hfil := filter_steps_eq l (cleanComps_mem l hcl)
    have hhead : (joinSep l).head? ≠ some '/' := by
      cases l with
      | nil => exact absurd rfl hne
      | cons c cs =>
        have hc := cleanComps_mem _ hcl c (List.mem_cons_self _ _)
        have hcne : c ≠ [] := by
          rcases hc with hc | hc
          · rw [hc]; decide
          · exact ((ordinary_iff c).mp hc).1
        cases c with
        | nil => exact absurd rfl hcne
        | cons y ys =>
          have hy : y ≠ '/' := hfree _ (List.mem_cons_self _ _) y (List.mem_cons_self _ _)
          cases cs with
          | nil => simpa [joinSep] using hy
          | cons d ds => simpa [joinSep] using hy
    unfold pathComps render
    simp only [hsplit, hfil, hhead, decide_False, Bool.false_eq_true, if_false, hne]

/-- Textual containment implies containment. -/
theorem beneath_inside (root p : List Char) (hroot : root ≠ [])
    (h : beneath root p = true) : inside root p = true := by
  obtain ⟨rest, hp, hord⟩ := (beneath_iff root p).mp h
  have hhead : p.head? = root.head? := by
    rw [hp]
    cases root with
    | nil => exact absurd rfl hroot
    | cons a r => rfl
  have hsplit : splitBy (fun c => decide (c = '/')) p
      = splitBy (fun c => decide (c = '/')) root ++ splitBy (fun c => decide (c = '/')) rest := by
    rw [hp, splitBy_append _ _ _ _ (by simp)]
  have hfil : (splitBy (fun c => decide (c = '/')) rest).filter (fun c => c ≠ [] && c ≠ ['.'])
      = splitBy (fun c => decide (c = '/')) rest :=
    filter_steps_eq _ (fun c hc => Or.inr (hord c hc))
  have hne := splitBy_ne_nil (fun c => decide (c = '/')) rest
  have hlen : 0 < (splitBy (fun c => decide (c = '/')) rest).length :=
    List.length_pos.mpr hne
  unfold inside pathComps
  simp only [hhead, hsplit, List.filter_append, hfil, beq_self_eq_true, Bool.true_and,
    Bool.and_eq_true, decide_eq_true_eq, List.length_append, List.drop_left]
  refine ⟨⟨?_, List.all_eq_true.mpr hord⟩, by omega⟩
  rw [List.isPrefixOf_iff_prefix]
  exact List.prefix_append _ _

/-- Containment implies the textual form when the root has at least one
step. -/
theorem inside_prefix (dest q : List Char)
    (hr : (pathComps (filepath.Clean dest)).2 ≠ [])
    (h : inside (filepath.Clean dest) (filepath.Clean q) = true) :
    strings.HasPrefix (filepath.Clean q) (filepath.Clean dest ++ ['/']) = true := by
  unfold inside at h
  simp only [Bool.and_eq_true, beq_iff_eq, decide_eq_true_eq] at h
  obtain ⟨⟨⟨hb, hpre⟩, _⟩, hlen⟩ := h
  obtain ⟨rest, hrest⟩ := List.isPrefixOf_iff_prefix.mp hpre
  have hrne : rest ≠ [] := by
    intro hnil
    rw [← hrest, hnil] at hlen
    simp at hlen
  rw [HasPrefix_iff]
  refine ⟨joinSep rest, ?_⟩
  rw [Clean_render q, Clean_render dest, ← hb, ← hrest]
  unfold render
  by_cases hroot : (pathComps (filepath.Clean dest)).1 = true
  · simp only [hroot, if_true, joinSep_append _ _ hr hrne]
    simp
  · simp only [hroot, Bool.false_eq_true, if_false, hr, joinSep_append _ _ hr hrne]
    have : (pathComps (filepath.Clean dest)).2 ++ rest ≠ [] := by simp [hr]
    simp [this]

theorem pathComps_ne_nil (dest : List Char) (h1 : filepath.Clean dest ≠ ['.'])
    (h2 : filepath.Clean dest ≠ ['/']) : (pathComps (filepath.Clean dest)).2 ≠ [] := by
  intro h
  have hr := Clean_render dest
  rw [h] at hr
  unfold render at hr
  by_cases hroot : (pathComps (filepath.Clean dest)).1 = true
  · rw [if_pos hroot] at hr
    exact h2 hr
  · rw [if_neg hroot] at hr
    exact h1 hr

/-- For a root with at least one step that does not end in `..`, the guard of
`unzipFile` accepts exactly the joined paths inside the root. -/
theorem zipSlipCheck_iff_inside (dest name : List Char)
    (hdest : endsInDotDot (filepath.Clean dest) = false)
    (h1 : filepath.Clean dest ≠ ['.']) (h2 : filepath.Clean dest ≠ ['/']) :
    zipSlipCheck dest (filepath.Join dest name) = true ↔
      inside (filepath.Clean dest) (filepath.Join dest name) = true := by
  constructor
  · intro h
    exact beneath_inside _ _ (Clean_ne_nil dest) (zipSlipCheck_sound dest name hdest h)
  · intro h
    unfold zipSlipCheck
    unfold filepath.Join at h ⊢
    by_cases ha : dest ≠ []
    · rw [if_pos ha] at h ⊢
      exact inside_prefix dest _ (pathComps_ne_nil dest h1 h2) h
    · rw [if_neg ha] at h ⊢
      by_cases hb : name ≠ []
      · rw [if_pos hb] at h ⊢
        exact inside_prefix dest _ (pathComps_ne_nil dest h1 h2) h
      · rw [if_neg hb] at h
        simp [inside, pathComps, splitBy] at h

/-- For the roots `.` and `/` the guard of `unzipFile` refuses every entry: no
cleaned path starts with `./` or with `//`. -/
theorem zipSlipCheck_dot_or_slash (dest name : List Char)
    (h : filepath.Clean dest = ['.'] ∨ filepath.Clean dest = ['/']) :
    zipSlipCheck dest (filepath.Join dest name) = false := by
  have hclean : ∀ q rest, filepath.Clean q ≠ filepath.Clean dest ++ '/' :: rest := by
    intro q rest hq
    have hsplit : splitBy (fun c => decide (c = '/')) (filepath.Clean q)
        = splitBy (fun c => decide (c = '/')) (filepath.Clean dest)
          ++ splitBy (fun c => decide (c = '/')) rest := by
      rw [hq, splitBy_append _ _ _ _ (by simp)]
    rcases Clean_cases q with h1 | ⟨os, hord, hfree, h2⟩ | ⟨l, hne, hcl, hfree, h3⟩
    · rw [h1] at hq
      have := congrArg List.length hq
      have hpos := List.length_pos.mpr (Clean_ne_nil dest)
      simp at this
      omega
    · rcases h with h | h
      · rw [h2, h] at hq
        simp at hq
      · rw [h2, h] at hq
        simp only [List.singleton_append, List.cons.injEq, true_and] at hq
        have hos : os ≠ [] := by
          intro hos
          rw [hos] at hq
          simp [joinSep] at hq
        have hsp := splitBy_joinSep os hos hfree
        rw [hq, splitBy_cons_sep _ _ _ (by simp)] at hsp
        have := hord [] (by rw [← hsp]; simp)
        simp [ordinary] at this
    · have hsp := splitBy_joinSep l hne hfree
      rw [← h3, hsplit] at hsp
      rcases h with h | h
      · rw [h] at hsp
        have hmem : ['.'] ∈ l := by rw [← hsp]; simp [splitBy]
        rcases cleanComps_mem l hcl _ hmem with h4 | h4
        · exact absurd h4 (by decide)
        · simp [ordinary] at h4
      · rw [h] at hsp
        have hmem : [] ∈ l := by rw [← hsp]; simp [splitBy]
        rcases cleanComps_mem l hcl _ hmem with h4 | h4
        · exact absurd h4 (by decide)
        · simp [ordinary] at h4
  rw [← Bool.not_eq_true]
  intro hc
  unfold zipSlipCheck at hc
  obtain ⟨rest, hrest⟩ := (HasPrefix_iff _ _).mp hc
  have hrest2 : filepath.Join dest name = filepath.Clean dest ++ '/' :: rest := by
    simpa using hrest
  unfold filepath.Join at hrest2
  by_cases ha : dest ≠ []
  · rw [if_pos ha] at hrest2
    exact hclean _ _ hrest2
  · rw [if_neg ha] at hrest2
    by_cases hb : name ≠ []
    · rw [if_pos hb] at hrest2
      exact hclean _ _ hrest2
    · rw [if_neg hb] at hrest2
      simp at hrest2

/-! ## `unzipFile` -/

theorem Join_beneath_is_clean (dest name : List Char)
    (h : beneath (filepath.Clean dest) (filepath.Join dest name) = true) :
    ∃ q, filepath.Join dest name = filepath.Clean q := by
  unfold filepath.Join at h ⊢
  by_cases ha : dest ≠ []
  · rw [if_pos ha]
    exact ⟨_, rfl⟩
  · rw [if_neg ha] at h ⊢
    by_cases hb : name ≠ []
    · rw [if_pos hb]
      exact ⟨_, rfl⟩
    · rw [if_neg hb] at h
      obtain ⟨rest, hrest, _⟩ := (beneath_iff _ _).mp h
      simp at hrest

theorem Dir_Join_confined (dest name : List Char)
    (h : beneath (filepath.Clean dest) (filepath.Join dest name) = true) :
    effectConfined (filepath.Clean dest)
      (.mkdirParent (filepath.Dir (filepath.Join dest name))) = true := by
  obtain ⟨q, hq⟩ := Join_beneath_is_clean dest name h
  rw [hq] at h ⊢
  rcases Dir_beneath dest q h with h1 | h1
  · simp [effectConfined, h1]
  · simp [effectConfined, h1]

/-- Every effect of the extraction loop is confined to the destination root. -/
theorem unzipLoop_confined (dest : List Char) (files : List ZipEntry)
    (hdest : endsInDotDot (filepath.Clean dest) = false) :
    ∀ e ∈ (unzipLoop dest files).2, effectConfined (filepath.Clean dest) e = true := by
  induction files with
  | nil => simp [unzipLoop]
  | cons f rest ih =>
    unfold unzipLoop
    by_cases hc : zipSlipCheck dest (filepath.Join dest f.Name) = true
    · have hb := zipSlipCheck_sound dest f.Name hdest hc
      have hd := Dir_Join_confined dest f.Name hb
      simp only [hc, Bool.not_true, Bool.false_eq_true, if_false]
      by_cases hdir : f.IsDir = true
      · simp only [hdir, if_true]
        split
        · simp
        · intro e he
          rcases List.mem_cons.mp he with h | h
          · rw [h]
            exact hb
          · exact ih e h
      · simp only [hdir, Bool.false_eq_true, if_false]
        split
        · simp
        · intro e he
          simp only [List.mem_singleton] at he
          rw [he]
          exact hd
        · intro e he
          simp only [List.mem_cons, List.mem_singleton, List.not_mem_nil, or_false] at he
          rcases he with h | h
          · rw [h]; exact hd
          · rw [h]; exact hb
        · intro e he
          simp only [List.mem_cons, List.mem_singleton, List.not_mem_nil, or_false] at he
          rcases he with h | h
          · rw [h]; exact hd
          · rw [h]; exact hb
        · intro e he
          rcases List.mem_cons.mp he with h | h
          · rw [h]; exact hd
          · rcases List.mem_cons.mp h with h | h
            · rw [h]; exact hb
            · exact ih e h
    · simp [hc]

/-- The loop stops at an entry the guard refuses: the effects are those of the
entries before it, and the error is the illegal-path error unless an earlier
entry already failed. -/
theorem unzipLoop_reject (dest : List Char) (pre post : List ZipEntry) (f : ZipEntry)
    (hc : zipSlipCheck dest (filepath.Join dest f.Name) = false) :
    (unzipLoop dest (pre ++ f :: post)).2 = (unzipLoop dest pre).2 ∧
    (unzipLoop dest (pre ++ f :: post)).1 =
      (match (unzipLoop dest pre).1 with
        | none => some (.illegalPath (filepath.Join dest f.Name))
        | some e => some e) := by
  induction pre with
  | nil => simp [unzipLoop, hc]
  | cons g pre ih =>
    rw [List.cons_append]
    unfold unzipLoop
    by_cases hg : zipSlipCheck dest (filepath.Join dest g.Name) = true
    · simp only [hg, Bool.not_true, Bool.false_eq_true, if_false]
      by_cases hdir : g.IsDir = true
      · simp only [hdir, if_true]
        split
        · simp
        · exact ⟨by rw [ih.1], ih.2⟩
      · simp only [hdir, Bool.false_eq_true, if_false]
        split
        · simp
        · simp
        · simp
        · simp
        · exact ⟨by rw [ih.1], ih.2⟩
    · simp [hg]

/-- C8 (archive traversal defence), for destination roots whose cleaned form
does not end in `..`.  Every directory `unzipFile` creates for an entry and
every file it writes lies strictly beneath `filepath.Clean(dest)` (the parent
directories it creates with `MkdirAll(filepath.Dir(fpath))` are the root or lie
beneath it); and an entry whose joined path is not strictly beneath the root
makes `unzipFile` return an error with nothing created for that entry or any
later one, the error being `illegal file path` unless an earlier entry already
failed. -/
theorem unzipFile_confined (dest : List Char) (files : List ZipEntry)
    (hdest : endsInDotDot (filepath.Clean dest) = false) :
    (∀ e ∈ (unzipFile (some files) dest).2, effectConfined (filepath.Clean dest) e = true) ∧
    (∀ pre f post, files = pre ++ f :: post →
      beneath (filepath.Clean dest) (filepath.Join dest f.Name) = false →
      (unzipFile (some files) dest).1 ≠ none ∧
      (unzipFile (some files) dest).2 = (unzipFile (some pre) dest).2 ∧
      ((unzipFile (some pre) dest).1 = none →
        (unzipFile (some files) dest).1 = some (.illegalPath (filepath.Join dest f.Name)))) := by
  constructor
  · exact unzipLoop_confined dest files hdest
  · intro pre f post hfiles hb
    have hc : zipSlipCheck dest (filepath.Join dest f.Name) = false := by
      rw [← Bool.not_eq_true, zipSlipCheck_iff_beneath dest f.Name hdest, hb]
      simp
    obtain ⟨h1, h2⟩ := unzipLoop_reject dest pre post f hc
    subst hfiles
    simp only [unzipFile]
    refine ⟨?_, h1, ?_⟩
    · rw [h2]
      split <;> simp
    · intro hpre
      rw [h2, hpre]

/-- C8 at the root `out` with the archive `ok.txt`, `../evil`, `late.txt`: the
first entry is written beneath `out`, the second is refused and nothing is
written for it or for the third. -/
theorem unzipFile_confined_witness :
    (∀ e ∈ (unzipFile (some [⟨"ok.txt".toList, false, bytesOf "1", none⟩,
        ⟨"../evil".toList, false, bytesOf "2", none⟩,
        ⟨"late.txt".toList, false, bytesOf "3", none⟩]) "out".toList).2,
      effectConfined (filepath.Clean "out".toList) e = true) ∧
    (unzipFile (some [⟨"ok.txt".toList, false, bytesOf "1", none⟩,
        ⟨"../evil".toList, false, bytesOf "2", none⟩,
        ⟨"late.txt".toList, false, bytesOf "3", none⟩]) "out".toList).1
      = some (.illegalPath "evil".toList) ∧
    (unzipFile (some [⟨"ok.txt".toList, false, bytesOf "1", none⟩,
        ⟨"../evil".toList, false, bytesOf "2", none⟩,
        ⟨"late.txt".toList, false, bytesOf "3", none⟩]) "out".toList).2
      = [.mkdirParent "out".toList, .writeFile "out/ok.txt".toList (bytesOf "1")] :=
  ⟨(unzipFile_confined "out".toList _ (by decide)).1,
    ((unzipFile_confined "out".toList _ (by decide)).2
      [⟨"ok.txt".toList, false, bytesOf "1", none⟩] ⟨"../evil".toList, false, bytesOf "2", none⟩
      [⟨"late.txt".toList, false, bytesOf "3", none⟩] rfl (by decide)).2.2 (by decide),
    by decide⟩

/-- C8 as stated fails for the root `..`: the entry `../a` is joined to
`../../a`, which starts with `../` and passes the guard, so the file is written
outside the root and no error is returned. -/
theorem unzipFile_dotdot_root_escapes :
    unzipFile (some [⟨"../a".toList, false, bytesOf "x", none⟩]) "..".toList
      = (none, [.mkdirParent "../..".toList, .writeFile "../../a".toList (bytesOf "x")]) ∧
    beneath (filepath.Clean "..".toList) "../../a".toList = false := by
  decide

/-- An entry that passes the guard either stops the loop with a file-system
error or leaves an effect behind: it is not answered with the illegal-path
error and no effect. -/
theorem unzipLoop_accept (dest : List Char) (f : ZipEntry) (rest : List ZipEntry)
    (hc : zipSlipCheck dest (filepath.Join dest f.Name) = true) (p : List Char) :
    unzipLoop dest (f :: rest) ≠ (some (.illegalPath p), []) := by
  intro h
  unfold unzipLoop at h
  simp only [hc, Bool.not_true, Bool.false_eq_true, if_false] at h
  by_cases hdir : f.IsDir = true
  · simp only [hdir, if_true] at h
    split at h <;> simp at h
  · simp only [hdir, Bool.false_eq_true, if_false] at h
    split at h <;> simp at h

/-- As long as no entry fails, the loop runs through the archive entry by
entry. -/
theorem unzipLoop_append (dest : List Char) (pre l : List ZipEntry)
    (hpre : (unzipLoop dest pre).1 = none) :
    unzipLoop dest (pre ++ l) =
      ((unzipLoop dest l).1, (unzipLoop dest pre).2 ++ (unzipLoop dest l).2) := by
  induction pre with
  | nil => simp [unzipLoop]
  | cons g pre ih =>
    rw [List.cons_append]
    rw [unzipLoop.eq_2 dest g (pre ++ l), unzipLoop.eq_2 dest g pre]
    rw [unzipLoop.eq_2 dest g pre] at hpre
    by_cases hg : zipSlipCheck dest (filepath.Join dest g.Name) = true
    · simp only [hg, Bool.not_true, Bool.false_eq_true, if_false] at hpre ⊢
      by_cases hdir : g.IsDir = true
      · simp only [hdir, if_true] at hpre ⊢
        split
        · rename_i hf
          simp [hf] at hpre
        · rename_i hf
          split at hpre
          · simp at hpre
          · simp only [ih hpre, List.cons_append]
      · simp only [hdir, Bool.false_eq_true, if_false] at hpre ⊢
        split at hpre
        · simp at hpre
        · simp at hpre
        · simp at hpre
        · simp at hpre
        · rename_i hf
          simp only [hf, ih hpre, List.cons_append]
    · simp [hg] at hpre

/-- An archive entry that the loop reaches is answered with the illegal-path
error, and nothing is created for it, exactly when the guard refuses it. -/
theorem unzipLoop_rejects_iff_guard (dest : List Char) (pre : List ZipEntry) (f : ZipEntry)
    (rest : List ZipEntry) (hpre : (unzipLoop dest pre).1 = none) :
    unzipLoop dest (pre ++ f :: rest)
        = (some (.illegalPath (filepath.Join dest f.Name)), (unzipLoop dest pre).2) ↔
      zipSlipCheck dest (filepath.Join dest f.Name) = false := by
  rw [unzipLoop_append dest pre (f :: rest) hpre]
  constructor
  · intro h
    by_contra hc
    have hc : zipSlipCheck dest (filepath.Join dest f.Name) = true := by simpa using hc
    have h1 := (Prod.mk.injEq _ _ _ _).mp h
    have h2 : (unzipLoop dest (f :: rest)).2 = [] := by
      have := h1.2
      simpa using this
    exact unzipLoop_accept dest f rest hc _ (Prod.ext h1.1 h2)
  · intro hc
    simp [unzipLoop, hc]

/-- C9.  An archive entry that the loop of `unzipFile` reaches (every earlier
entry was extracted without error) is rejected with the `illegal file path`
error, with nothing created for it, exactly when its joined path
`filepath.Join(dest, name)` is not strictly inside the directory
`filepath.Clean(dest)`, provided the cleaned root is neither `.` nor `/` and
does not end in `..`; for a root that cleans to `.` or `/` every entry is
rejected. -/
theorem unzipFile_rejects_iff (dest : List Char) (pre : List ZipEntry) (f : ZipEntry)
    (rest : List ZipEntry)
    (hpre : (unzipFile (some pre) dest).1 = none) :
    (endsInDotDot (filepath.Clean dest) = false → filepath.Clean dest ≠ ['.'] →
      filepath.Clean dest ≠ ['/'] →
      (unzipFile (some (pre ++ f :: rest)) dest
          = (some (.illegalPath (filepath.Join dest f.Name)), (unzipFile (some pre) dest).2) ↔
        inside (filepath.Clean dest) (filepath.Join dest f.Name) = false)) ∧
    ((filepath.Clean dest = ['.'] ∨ filepath.Clean dest = ['/']) →
      unzipFile (some (pre ++ f :: rest)) dest
        = (some (.illegalPath (filepath.Join dest f.Name)), (unzipFile (some pre) dest).2)) := by
  simp only [unzipFile] at hpre ⊢
  constructor
  · intro hdest h1 h2
    rw [unzipLoop_rejects_iff_guard dest pre f rest hpre, ← Bool.not_eq_true,
      zipSlipCheck_iff_inside dest f.Name hdest h1 h2, Bool.not_eq_true]
  · intro h
    exact (unzipLoop_rejects_iff_guard dest pre f rest hpre).mpr
      (zipSlipCheck_dot_or_slash dest f.Name h)

/-- C9 at the root `out`: after `ok.txt` was extracted, the entry `../x` is
rejected. -/
theorem unzipFile_rejects_iff_witness :
    unzipFile (some [⟨"ok.txt".toList, false, bytesOf "1", none⟩,
        ⟨"../x".toList, false, bytesOf "x", none⟩]) "out".toList
      = (some (.illegalPath (filepath.Join "out".toList "../x".toList)),
          (unzipFile (some [⟨"ok.txt".toList, false, bytesOf "1", none⟩]) "out".toList).2) :=
  ((unzipFile_rejects_iff "out".toList [⟨"ok.txt".toList, false, bytesOf "1", none⟩]
    ⟨"../x".toList, false, bytesOf "x", none⟩ [] (by decide)).1
      (by decide) (by decide) (by decide)).mpr (by decide)

/-- C9 as stated fails: joined to the root `out`, the absolute name
`/etc/passwd` and the name `a/../b` land beneath the root, so both entries are
extracted (to `out/etc/passwd` and `out/b`) and no error is returned. -/
theorem unzipFile_accepts_absolute_and_inner_dotdot :
    unzipFile (some [⟨"/etc/passwd".toList, false, bytesOf "x", none⟩,
        ⟨"a/../b".toList, false, bytesOf "y", none⟩]) "out".toList
      = (none, [.mkdirParent "out/etc".toList, .writeFile "out/etc/passwd".toList (bytesOf "x"),
          .mkdirParent "out".toList, .writeFile "out/b".toList (bytesOf "y")]) := by
  decide

/-! ## The manifest parser -/

theorem parseLine_eq (files : List GDELTFile) (line : List Char) :
    parseLine files line = files ++ (if wellFormed line then [entryOf line] else []) := by
  unfold parseLine wellFormed entryOf
  by_cases h3 : (strings.Fields line).length = 3
  · simp only [h3, ne_eq, not_true_eq_false, if_false, decide_True, Bool.true_and]
    cases hp : strconv.ParseInt ((strings.Fields line).getD 0 []) with
    | none => simp only [Option.isSome_none, Bool.false_eq_true, if_false, List.append_nil]
    | some n => simp only [Option.isSome_some, if_true, Option.getD_some]
  · simp only [h3, ne_eq, not_false_eq_true, if_true, decide_False, Bool.false_and,
      Bool.false_eq_true, if_false, List.append_nil]

theorem foldl_parseLine (lines : List (List Char)) (acc : List GDELTFile) :
    lines.foldl parseLine acc = acc ++ (lines.filter wellFormed).map entryOf := by
  induction lines generalizing acc with
  | nil => simp
  | cons l ls ih =>
    rw [List.foldl_cons, ih, parseLine_eq]
    by_cases h : wellFormed l = true
    · simp [h]
    · simp [h]

theorem linesOf_cons_cons (l r : List Char) (rs : List (List Char)) :
    linesOf (l :: r :: rs) = l :: linesOf (r :: rs) := by
  unfold linesOf
  rw [List.getLast?_cons_cons]
  split <;> simp

theorem scanLines_cons (eof : Bool) (l : List Char) (ps : List (List Char)) (hps : ps ≠ []) :
    scanLines eof (l :: ps) =
      if maxScanTokenSize ≤ utf8Len l then ([], true)
      else ((dropCR l) :: (scanLines eof ps).1, (scanLines eof ps).2) := by
  cases ps with
  | nil => exact absurd rfl hps
  | cons r rs => rw [scanLines]

/-- When the scanner reports no error, its tokens are the lines of the text
without their carriage returns, and no line exceeds the buffer. -/
theorem scanLines_ok (eof : Bool) (ps : List (List Char))
    (h : (scanLines eof ps).2 = false) :
    (scanLines eof ps).1 = (linesOf ps).map dropCR ∧
      ∀ l ∈ linesOf ps, utf8Len l ≤ maxScanTokenSize := by
  induction ps with
  | nil => simp [scanLines, linesOf]
  | cons l t ih =>
    cases t with
    | nil =>
      unfold scanLines at h ⊢
      unfold linesOf
      by_cases hl : l = []
      · simp [hl]
      · rw [if_neg hl] at h ⊢
        by_cases hfit : utf8Len l < maxScanTokenSize ∨
            (utf8Len l = maxScanTokenSize ∧ eof = true)
        · rw [if_pos hfit]
          have hlast : ([l] : List (List Char)).getLast? ≠ some [] := by simp [hl]
          rw [if_neg hlast]
          refine ⟨rfl, ?_⟩
          intro x hx
          rw [List.mem_singleton.mp hx]
          rcases hfit with h1 | h1
          · omega
          · omega
        · rw [if_neg hfit] at h
          simp at h
    | cons r rs =>
      rw [scanLines_cons eof l (r :: rs) (by simp)] at h ⊢
      rw [linesOf_cons_cons]
      by_cases hl : maxScanTokenSize ≤ utf8Len l
      · rw [if_pos hl] at h
        simp at h
      · rw [if_neg hl] at h ⊢
        obtain ⟨h1, h2⟩ := ih h
        refine ⟨by simp [h1], ?_⟩
        intro x hx
        rcases List.mem_cons.mp hx with hx | hx
        · rw [hx]
          omega
        · exact h2 x hx

/-- The scanner reports no error when every line is shorter than its buffer. -/
theorem scanLines_short (eof : Bool) (ps : List (List Char))
    (h : ∀ l ∈ linesOf ps, utf8Len l < maxScanTokenSize) :
    (scanLines eof ps).2 = false := by
  induction ps with
  | nil => simp [scanLines]
  | cons l t ih =>
    cases t with
    | nil =>
      unfold scanLines
      by_cases hl : l = []
      · simp [hl]
      · rw [if_neg hl]
        have hmem : l ∈ linesOf [l] := by
          unfold linesOf
          simp [hl]
        rw [if_pos (Or.inl (h l hmem))]
    | cons r rs =>
      rw [scanLines_cons eof l (r :: rs) (by simp)]
      rw [linesOf_cons_cons] at h
      rw [if_neg (by have := h l (List.mem_cons_self _ _); omega)]
      exact ih (fun x hx => h x (List.mem_cons_of_mem _ hx))

/-- The scanner stops with an error when a line followed by a newline does not
fit its buffer. -/
theorem scanLines_long (eof : Bool) (ps : List (List Char))
    (h : ∃ l ∈ ps.dropLast, maxScanTokenSize ≤ utf8Len l) :
    (scanLines eof ps).2 = true := by
  induction ps with
  | nil => simp at h
  | cons l t ih =>
    cases t with
    | nil => simp at h
    | cons r rs =>
      rw [scanLines_cons eof l (r :: rs) (by simp)]
      by_cases hl : maxScanTokenSize ≤ utf8Len l
      · rw [if_pos hl]
      · rw [if_neg hl]
        apply ih
        obtain ⟨x, hx, hlen⟩ := h
        rw [List.dropLast_cons₂] at hx
        rcases List.mem_cons.mp hx with hx | hx
        · rw [hx] at hlen
          exact absurd hlen hl
        · exact ⟨x, hx, hlen⟩

/-- What `fetchMasterFilelist` returns for a status-200 body that is read to
the end: the expected entries, or an error when the scanner gave up. -/
theorem fetch_okResponse (eof : Bool) (body : List Char) :
    fetchMasterFilelist (okResponse eof body) =
      if (scanLines eof (splitBy (fun c => c = '\n') body)).2 then .error .read
      else .ok (expectedEntries body) := by
  by_cases herr : (scanLines eof (splitBy (fun c => decide (c = '\n')) body)).2 = true
  · simp [fetchMasterFilelist, okResponse, parseLoop, herr]
  · have herr2 : (scanLines eof (splitBy (fun c => decide (c = '\n')) body)).2 = false := by
      simpa using herr
    have htok := (scanLines_ok eof _ herr2).1
    simp only [fetchMasterFilelist, okResponse, parseLoop, herr2, htok, foldl_parseLine,
      expectedEntries, manifestLines, rawLines, ne_eq, not_true_eq_false, if_false,
      Bool.or_false, Bool.false_eq_true, List.nil_append]
    rfl

/-- C4 (manifest tolerance).  For a manifest body received with status 200 and
read to the end: whenever `fetchMasterFilelist` returns entries, they are, in
line order, exactly the entry of every well-formed line and nothing for any
other line; it returns them whenever every line of the body (a trailing
carriage return counted, the newline not) is shorter than 65536 bytes; and it
returns an error whenever a line followed by a newline has 65536 bytes or
more. -/
theorem fetchMasterFilelist_tolerant (eof : Bool) (body : List Char) :
    (∀ files, fetchMasterFilelist (okResponse eof body) = .ok files →
      files = expectedEntries body) ∧
    ((∀ l ∈ rawLines body, utf8Len l < maxScanTokenSize) →
      fetchMasterFilelist (okResponse eof body) = .ok (expectedEntries body)) ∧
    ((∃ l ∈ terminatedLines body, maxScanTokenSize ≤ utf8Len l) →
      fetchMasterFilelist (okResponse eof body) = .error .read) := by
  rw [fetch_okResponse]
  refine ⟨?_, ?_, ?_⟩
  · intro files h
    split at h
    · exact absurd h (by simp)
    · exact (Except.ok.inj h).symm
  · intro hshort
    rw [scanLines_short eof _ hshort]
    rfl
  · intro hlong
    rw [scanLines_long eof _ hlong]
    rfl

/-- C4 at the manifest of the spec's concrete scenario: the single line yields
the single entry `(100, 9e10…19d6, http://host/a.zip, a.zip)`. -/
theorem fetchMasterFilelist_tolerant_witness :
    fetchMasterFilelist (okResponse true demoLine) = .ok [demoEntry] :=
  ((fetchMasterFilelist_tolerant true demoLine).2.1 (by decide)).trans (by decide)

theorem utf8Len_replicate_x (n : Nat) : utf8Len (List.replicate n 'x') = n := by
  induction n with
  | zero => rfl
  | succ n ih =>
    have h1 : Char.utf8Size 'x' = 1 := by decide
    unfold utf8Len at ih ⊢
    rw [List.replicate_succ, List.map_cons, List.sum_cons, ih, h1]
    omega

theorem replicate_x_free (p : Char → Bool) (hp : p 'x' = false) (n : Nat) :
    ∀ c ∈ List.replicate n 'x', p c = false := by
  intro c hc
  rw [List.eq_of_mem_replicate hc]
  exact hp

theorem splitBy_long_demo (n : Nat) :
    splitBy (fun c => c = '\n') (List.replicate n 'x' ++ '\n' :: demoLine)
      = [List.replicate n 'x', demoLine] := by
  have h1 := splitBy_of_free (fun c => decide (c = '\n')) _
    (replicate_x_free (fun c => decide (c = '\n')) (by decide) n)
  have h2 : splitBy (fun c => decide (c = '\n')) demoLine = [demoLine] := by decide
  rw [splitBy_append (fun c => decide (c = '\n')) (List.replicate n 'x') demoLine '\n'
    (by decide), h1, h2]
  rfl

theorem rawLines_long_demo (n : Nat) :
    rawLines (List.replicate n 'x' ++ '\n' :: demoLine) = [List.replicate n 'x', demoLine] := by
  unfold rawLines
  simp only [splitBy_long_demo]
  have h3 : ([List.replicate n 'x', demoLine]).getLast? = some demoLine := by simp
  rw [h3, if_neg (by decide)]

theorem Fields_replicate_x (n : Nat) :
    strings.Fields (List.replicate (n + 1) 'x') = [List.replicate (n + 1) 'x'] := by
  unfold strings.Fields
  rw [splitBy_of_free _ _ (replicate_x_free unicode.IsSpace (by decide) (n + 1))]
  simp [List.replicate_succ]

theorem wellFormed_replicate_x (n : Nat) :
    wellFormed (dropCR (List.replicate (n + 1) 'x')) = false := by
  have hcr : dropCR (List.replicate (n + 1) 'x') = List.replicate (n + 1) 'x' := by
    unfold dropCR
    rw [if_neg]
    rw [List.getLast?_replicate]
    simp
  unfold wellFormed
  rw [hcr, Fields_replicate_x]
  simp

theorem parseLoop_long_demo (eof : Bool) :
    parseLoop eof (longLine ++ '\n' :: demoLine) = ([], true) := by
  have hlen : maxScanTokenSize ≤ utf8Len (List.replicate maxScanTokenSize 'x') :=
    Nat.le_of_eq (utf8Len_replicate_x _).symm
  unfold parseLoop longLine
  simp only [splitBy_long_demo]
  rw [scanLines_cons eof _ _ (by simp), if_pos hlen]
  rfl

theorem expectedEntries_replicate_demo (n : Nat) :
    expectedEntries (List.replicate (n + 1) 'x' ++ '\n' :: demoLine) = [demoEntry] := by
  unfold expectedEntries manifestLines
  rw [rawLines_long_demo]
  have h0 := wellFormed_replicate_x n
  have h1 : wellFormed (dropCR demoLine) = true := by decide
  have h2 : entryOf (dropCR demoLine) = demoEntry := by decide
  simp only [List.map_cons, List.map_nil, List.filter, h0, h1, h2]

theorem longLine_eq : longLine = List.replicate (65535 + 1) 'x' := by
  unfold longLine maxScanTokenSize
  rfl

theorem expectedEntries_long_demo :
    expectedEntries (longLine ++ '\n' :: demoLine) = [demoEntry] := by
  rw [longLine_eq]
  exact expectedEntries_replicate_demo 65535

theorem splitBy_demo_long (n : Nat) :
    splitBy (fun c => c = '\n') (demoLine ++ '\n' :: List.replicate n 'x')
      = [demoLine, List.replicate n 'x'] := by
  have h1 := splitBy_of_free (fun c => decide (c = '\n')) _
    (replicate_x_free (fun c => decide (c = '\n')) (by decide) n)
  have h2 : splitBy (fun c => decide (c = '\n')) demoLine = [demoLine] := by decide
  rw [splitBy_append (fun c => decide (c = '\n')) demoLine (List.replicate n 'x') '\n'
    (by decide), h1, h2]
  rfl

theorem expectedEntries_demo_replicate (n : Nat) :
    expectedEntries (demoLine ++ '\n' :: List.replicate (n + 1) 'x') = [demoEntry] := by
  have hne : List.replicate (n + 1) 'x' ≠ [] := by simp
  unfold expectedEntries manifestLines rawLines
  simp only [splitBy_demo_long]
  have h3 : ([demoLine, List.replicate (n + 1) 'x']).getLast? ≠ some [] := by
    simp [List.replicate_succ]
  rw [if_neg h3]
  have h0 := wellFormed_replicate_x n
  have h1 : wellFormed (dropCR demoLine) = true := by decide
  have h2 : entryOf (dropCR demoLine) = demoEntry := by decide
  simp only [List.map_cons, List.map_nil, List.filter, h0, h1, h2]

/-- The boundary of the scanner buffer: a last line of exactly 65536 bytes
without newline is delivered, and the entries returned, when the end of input
arrives with the data; otherwise the scanner gives up. -/
theorem fetchMasterFilelist_boundary :
    fetchMasterFilelist (okResponse true (demoLine ++ '\n' :: longLine)) = .ok [demoEntry] ∧
    fetchMasterFilelist (okResponse false (demoLine ++ '\n' :: longLine)) = .error .read := by
  have hlen : utf8Len (List.replicate maxScanTokenSize 'x') = maxScanTokenSize :=
    utf8Len_replicate_x _
  have hne : List.replicate maxScanTokenSize 'x' ≠ [] := by
    unfold maxScanTokenSize
    rw [show (65536 : Nat) = 65535 + 1 from rfl, List.replicate_succ]
    exact List.cons_ne_nil _ _
  have hd : ¬ maxScanTokenSize ≤ utf8Len demoLine := by decide
  have hscan : ∀ eof : Bool, (scanLines eof (splitBy (fun c => decide (c = '\n'))
      (demoLine ++ '\n' :: List.replicate maxScanTokenSize 'x'))).2 = !eof := by
    intro eof
    rw [splitBy_demo_long, scanLines_cons eof _ _ (by simp), if_neg hd]
    unfold scanLines
    rw [if_neg hne]
    cases eof with
    | true => rw [if_pos (Or.inr ⟨hlen, rfl⟩)]; rfl
    | false => rw [if_neg (by rw [hlen]; simp)]; rfl
  have hexp : expectedEntries (demoLine ++ '\n' :: longLine) = [demoEntry] := by
    rw [longLine_eq]
    exact expectedEntries_demo_replicate 65535
  constructor
  · rw [fetch_okResponse]
    unfold longLine
    rw [hscan true]
    exact congrArg Except.ok hexp
  · rw [fetch_okResponse]
    unfold longLine
    rw [hscan false]
    rfl

/-- C4 as stated fails for a body with an over-long line: a line of 65536
bytes followed by a newline stops the scanner with `ErrTooLong`, however the
reader reports the end of input, so the loop ends with no entry,
`fetchMasterFilelist` returns an error, and the well-formed line that follows
yields nothing. -/
theorem fetchMasterFilelist_long_line :
    fetchMasterFilelist (okResponse true (longLine ++ '\n' :: demoLine)) = .error .read ∧
    fetchMasterFilelist (okResponse false (longLine ++ '\n' :: demoLine)) = .error .read ∧
    (parseLoop true (longLine ++ '\n' :: demoLine)).1 = [] ∧
    (parseLoop false (longLine ++ '\n' :: demoLine)).1 = [] ∧
    expectedEntries (longLine ++ '\n' :: demoLine) = [demoEntry] := by
  have hloop := parseLoop_long_demo
  refine ⟨by simp [fetchMasterFilelist, okResponse, hloop],
    by simp [fetchMasterFilelist, okResponse, hloop], by rw [hloop], by rw [hloop], ?_⟩
  exact expectedEntries_long_demo

/-! ## The ledger and the dispatcher -/

theorem utf8Len_cons (c : Char) (s : List Char) : utf8Len (c :: s) = c.utf8Size + utf8Len s := by
  simp [utf8Len]

theorem utf8Len_append (a b : List Char) : utf8Len (a ++ b) = utf8Len a + utf8Len b := by
  simp [utf8Len]

theorem utf8Len_dropCR_le (l : List Char) : utf8Len (dropCR l) ≤ utf8Len l := by
  unfold dropCR
  split
  · rcases List.eq_nil_or_concat l with h | ⟨init, last, h⟩
    · simp [h]
    · rw [h, List.concat_eq_append, List.dropLast_concat, utf8Len_append]
      omega
  · exact Nat.le_refl _

theorem splitBy_piece_utf8Len (p : Char → Bool) (s : List Char) :
    ∀ piece ∈ splitBy p s, utf8Len piece ≤ utf8Len s := by
  induction s with
  | nil => simp [splitBy, utf8Len]
  | cons c cs ih =>
    by_cases h : p c = true
    · rw [splitBy_cons_sep p c cs h]
      intro piece hp
      rcases List.mem_cons.mp hp with rfl | hp
      · simp [utf8Len]
      · have := ih piece hp
        rw [utf8Len_cons]
        omega
    · have h : p c = false := by simpa using h
      obtain ⟨hd, tl, h1, h2⟩ := splitBy_cons_other p c cs h
      rw [h2]
      rw [h1] at ih
      intro piece hp
      rcases List.mem_cons.mp hp with rfl | hp
      · have := ih hd (List.mem_cons_self _ _)
        rw [utf8Len_cons, utf8Len_cons]
        omega
      · have := ih piece (List.mem_cons_of_mem _ hp)
        rw [utf8Len_cons]
        omega

theorem ledgerOf_cons (u : List Char) (us : List (List Char)) :
    ledgerOf (u :: us) = u ++ '\n' :: ledgerOf us := by
  simp [ledgerOf]

theorem ledgerOf_append (us vs : List (List Char)) :
    ledgerOf (us ++ vs) = ledgerOf us ++ ledgerOf vs := by
  simp [ledgerOf]

theorem splitBy_ledgerOf (us : List (List Char)) (h : ∀ u ∈ us, ∀ c ∈ u, c ≠ '\n') :
    splitBy (fun c => c = '\n') (ledgerOf us) = us ++ [[]] := by
  induction us with
  | nil => rfl
  | cons u us ih =>
    rw [ledgerOf_cons, splitBy_append (fun c => decide (c = '\n')) u (ledgerOf us) '\n' (by decide),
      ih (fun v hv => h v (List.mem_cons_of_mem _ hv)),
      splitBy_of_free _ u (by
        intro c hc
        simpa using h u (List.mem_cons_self _ _) c hc)]
    rfl

theorem dropCR_of_safe (u : List Char) (h : u.getLast? ≠ some '\r') : dropCR u = u := by
  unfold dropCR
  rw [if_neg h]

theorem scanLines_safe_lines (eof : Bool) (us : List (List Char))
    (h : ∀ u ∈ us, ledgerSafe u) : scanLines eof (us ++ [[]]) = (us, false) := by
  induction us with
  | nil => simp [scanLines]
  | cons u us ih =>
    have hu := h u (List.mem_cons_self _ _)
    rw [List.cons_append, scanLines_cons eof u (us ++ [[]]) (by simp),
      if_neg (by have := hu.2.2; omega), ih (fun v hv => h v (List.mem_cons_of_mem _ hv)),
      dropCR_of_safe u hu.2.1]

theorem scanLines_ledgerOf (us : List (List Char)) (h : ∀ u ∈ us, ledgerSafe u) :
    scanLines false (splitBy (fun c => c = '\n') (ledgerOf us)) = (us, false) := by
  rw [splitBy_ledgerOf us (fun u hu => (h u hu).1)]
  exact scanLines_safe_lines false us h

/-- Reading back a ledger of safe lines gives those lines. -/
theorem loadDownloadedFiles_logLines (env : Env) (log : Option (List Char))
    (us : List (List Char)) (hlog : logLines log us) (hsafe : ∀ u ∈ us, ledgerSafe u)
    (hread : env.logReadFails = false) : loadDownloadedFiles env log = us := by
  rcases hlog with ⟨h1, h2⟩ | h1
  · simp [loadDownloadedFiles, h1, h2]
  · simp [loadDownloadedFiles, h1, hread, scanLines_ledgerOf us hsafe]

/-- Whatever the environment, the loaded keys are among the lines of the
ledger. -/
theorem loadDownloadedFiles_subset (env : Env) (log : Option (List Char))
    (us : List (List Char)) (hlog : logLines log us) (hsafe : ∀ u ∈ us, ledgerSafe u) :
    ∀ u ∈ loadDownloadedFiles env log, u ∈ us := by
  by_cases hread : env.logReadFails = false
  · rw [loadDownloadedFiles_logLines env log us hlog hsafe hread]
    exact fun u hu => hu
  · rcases hlog with ⟨h1, _⟩ | h1
    · simp [loadDownloadedFiles, h1]
    · simp [loadDownloadedFiles, h1, hread]

theorem logLines_getD (log : Option (List Char)) (us : List (List Char))
    (h : logLines log us) : log.getD [] = ledgerOf us := by
  rcases h with ⟨h1, h2⟩ | h1
  · simp [h1, h2, ledgerOf]
  · simp [h1]

/-- The ledger after a run in which every download and every ledger append
succeeded: the URLs of the tasks, in completion order, follow the old lines. -/
theorem runTasks_log (env : Env) (order : List GDELTFile) (w : World)
    (hsucc : allSucceed env w order = true)
    (happend : ∀ f ∈ order, env.logOpenFails f.URL = false ∧ env.logWriteFails f.URL = false) :
    (runTasks env w order).log =
      if order = [] then w.log
      else some (w.log.getD [] ++ ledgerOf (order.map GDELTFile.URL)) := by
  induction order generalizing w with
  | nil => rfl
  | cons f fs ih =>
    simp only [allSucceed, Bool.and_eq_true, Option.isNone_iff_eq_none] at hsucc
    obtain ⟨h1, h2⟩ := hsucc
    obtain ⟨ho, hw⟩ := happend f (List.mem_cons_self _ _)
    have hstep : (downloadTask env w f).log = some (w.log.getD [] ++ f.URL ++ ['\n']) := by
      simp [downloadTask, h1, markFileAsDownloaded, ho, hw]
    have hrec := ih (downloadTask env w f) h2 (fun g hg => happend g (List.mem_cons_of_mem _ hg))
    unfold runTasks at hrec ⊢
    rw [List.foldl_cons, hrec, hstep]
    by_cases hfs : fs = []
    · simp [hfs, ledgerOf]
    · simp [hfs, ledgerOf_cons]

theorem runTasks_logLines (env : Env) (order : List GDELTFile) (w : World)
    (us : List (List Char)) (hlog : logLines w.log us)
    (hsucc : allSucceed env w order = true)
    (happend : ∀ f ∈ order, env.logOpenFails f.URL = false ∧ env.logWriteFails f.URL = false) :
    logLines (runTasks env w order).log (us ++ order.map GDELTFile.URL) := by
  rw [runTasks_log env order w hsucc happend]
  by_cases ho : order = []
  · simpa [ho] using hlog
  · rw [if_neg ho]
    right
    rw [logLines_getD _ _ hlog, ledgerOf_append]

/-- What a successful `fetchMasterFilelist` returned. -/
theorem fetch_ok_iff (eof : Bool) (body : List Char) (files : List GDELTFile)
    (h : fetchMasterFilelist (okResponse eof body) = .ok files) :
    files = expectedEntries body ∧ ∀ l ∈ rawLines body, utf8Len l ≤ maxScanTokenSize := by
  rw [fetch_okResponse] at h
  by_cases herr : (scanLines eof (splitBy (fun c => decide (c = '\n')) body)).2 = true
  · rw [if_pos herr] at h
    exact absurd h (by simp)
  · rw [if_neg herr] at h
    exact ⟨(Except.ok.inj h).symm, (scanLines_ok eof _ (by simpa using herr)).2⟩

/-- Every entry the parser returns is the entry of a well-formed line of the
body. -/
theorem fetch_ok_entry (eof : Bool) (body : List Char) (files : List GDELTFile)
    (h : fetchMasterFilelist (okResponse eof body) = .ok files) (f : GDELTFile)
    (hf : f ∈ files) :
    ∃ raw ∈ rawLines body, utf8Len raw ≤ maxScanTokenSize ∧
      wellFormed (dropCR raw) = true ∧ f = entryOf (dropCR raw) := by
  obtain ⟨h1, h2⟩ := fetch_ok_iff eof body files h
  rw [h1] at hf
  simp only [expectedEntries, manifestLines, List.mem_map, List.mem_filter] at hf
  obtain ⟨line, ⟨⟨raw, hraw, hline⟩, hwf⟩, hentry⟩ := hf
  subst hline
  exact ⟨raw, hraw, h2 raw hraw, hwf, hentry.symm⟩

theorem getD_mem_of_lt (l : List (List Char)) (i : Nat) (h : i < l.length) :
    l.getD i [] ∈ l := by
  rw [List.getD_eq_getElem _ _ h]
  exact List.getElem_mem h

theorem IsSpace_newline : unicode.IsSpace '\n' = true := by decide

theorem IsSpace_return : unicode.IsSpace '\r' = true := by decide

theorem utf8Len_pos (s : List Char) (h : s ≠ []) : 0 < utf8Len s := by
  cases s with
  | nil => exact absurd rfl h
  | cons c t =>
    rw [utf8Len_cons]
    have := Char.utf8Size_pos c
    omega

/-- The pieces of a text are together no longer than the text. -/
theorem splitBy_sum_le (p : Char → Bool) (s : List Char) :
    ((splitBy p s).map utf8Len).sum ≤ utf8Len s := by
  induction s with
  | nil => simp [splitBy, utf8Len]
  | cons c cs ih =>
    by_cases h : p c = true
    · rw [splitBy_cons_sep p c cs h, utf8Len_cons]
      simp only [List.map_cons, List.sum_cons]
      have h0 : utf8Len [] = 0 := rfl
      omega
    · have h : p c = false := by simpa using h
      obtain ⟨hd, tl, h1, h2⟩ := splitBy_cons_other p c cs h
      rw [h2]
      rw [h1] at ih
      simp only [List.map_cons, List.sum_cons, utf8Len_cons] at ih ⊢
      omega

theorem filter_sum_le (q : List Char → Bool) (l : List (List Char)) :
    ((l.filter q).map utf8Len).sum ≤ (l.map utf8Len).sum := by
  induction l with
  | nil => simp
  | cons x xs ih =>
    by_cases hq : q x = true
    · simp only [List.filter_cons, hq, if_true, List.map_cons, List.sum_cons]
      omega
    · simp only [List.filter_cons, hq, Bool.false_eq_true, if_false, List.map_cons,
        List.sum_cons]
      omega

/-- In a line of three fields the third field is shorter than the line. -/
theorem third_field_lt (line : List Char) (h3 : (strings.Fields line).length = 3) :
    utf8Len ((strings.Fields line).getD 2 []) < utf8Len line := by
  obtain ⟨a, b, c, habc⟩ := List.length_eq_three.mp h3
  have hsum : ((strings.Fields line).map utf8Len).sum ≤ utf8Len line := by
    unfold strings.Fields
    exact Nat.le_trans (filter_sum_le _ _) (splitBy_sum_le _ _)
  have ha : a ∈ strings.Fields line := by rw [habc]; simp
  have hane : a ≠ [] := by
    unfold strings.Fields at ha
    have := (List.mem_filter.mp ha).2
    intro h
    rw [h] at this
    simp at this
  have hpos := utf8Len_pos a hane
  rw [habc] at hsum ⊢
  simp only [List.map_cons, List.map_nil, List.sum_cons, List.sum_nil] at hsum
  simp only [List.getD_cons_succ, List.getD_cons_zero]
  omega

/-- The URL of a parsed entry can be written to the ledger and read back. -/
theorem fetch_ok_url_safe (eof : Bool) (body : List Char) (files : List GDELTFile)
    (h : fetchMasterFilelist (okResponse eof body) = .ok files) (f : GDELTFile)
    (hf : f ∈ files) :
    ledgerSafe f.URL := by
  obtain ⟨raw, _, hshort, hwf, hentry⟩ := fetch_ok_entry eof body files h f hf
  simp only [wellFormed, Bool.and_eq_true, decide_eq_true_eq] at hwf
  have hmem : f.URL ∈ strings.Fields (dropCR raw) := by
    rw [hentry]
    exact getD_mem_of_lt _ 2 (by rw [hwf.1]; omega)
  have hlt : utf8Len f.URL < utf8Len (dropCR raw) := by
    rw [hentry]
    exact third_field_lt _ hwf.1
  unfold strings.Fields at hmem
  have hpiece := (List.mem_filter.mp hmem).1
  have hfree := splitBy_piece_free unicode.IsSpace _ _ hpiece
  have hcr := utf8Len_dropCR_le raw
  refine ⟨?_, ?_, by omega⟩
  · intro c hc hcn
    have := hfree c hc
    rw [hcn, IsSpace_newline] at this
    exact absurd this (by simp)
  · intro hlast
    have := hfree '\r' (List.mem_of_getLast?_eq_some hlast)
    rw [IsSpace_return] at this
    exact absurd this (by simp)

theorem pendingFiles_mem (downloaded : List (List Char)) (masterList : List GDELTFile)
    (f : GDELTFile) (hf : f ∈ masterList) :
    f.URL ∈ downloaded ∨ f ∈ pendingFiles downloaded masterList := by
  by_cases h : f.URL ∈ downloaded
  · exact Or.inl h
  · right
    unfold pendingFiles
    rw [List.mem_filter]
    exact ⟨hf, by simpa using h⟩

theorem pendingFiles_eq_nil (downloaded : List (List Char)) (masterList : List GDELTFile)
    (h : ∀ f ∈ masterList, f.URL ∈ downloaded) : pendingFiles downloaded masterList = [] := by
  unfold pendingFiles
  rw [List.filter_eq_nil_iff]
  intro f hf
  simpa using h f hf

/-- C7 (idempotence of the sync), when the ledger can be written and read.
Start from a missing ledger or one holding lines `us` that
`markFileAsDownloaded` wrote (URLs without newline that fit the scanner).  If
in a first run every pending download succeeds and every ledger append
succeeds, then a second run with the same manifest that can read the ledger
loads a set containing the URL of every manifest entry, its pending set is
empty, and it launches no `downloadFile` invocation. -/
theorem sync_idempotent (env1 env2 : Env) (eof : Bool) (body : List Char)
    (files : List GDELTFile)
    (sched1 sched2 : List GDELTFile → List GDELTFile) (w : World) (us : List (List Char))
    (hfetch : fetchMasterFilelist (okResponse eof body) = .ok files)
    (hold : logLines w.log us)
    (hus : ∀ u ∈ us, ledgerSafe u)
    (hperm : (sched1 (pendingFiles (loadDownloadedFiles env1 w.log) files)).Perm
      (pendingFiles (loadDownloadedFiles env1 w.log) files))
    (hsucc : allSucceed env1 w
      (sched1 (pendingFiles (loadDownloadedFiles env1 w.log) files)) = true)
    (happend : ∀ f ∈ files, env1.logOpenFails f.URL = false ∧ env1.logWriteFails f.URL = false)
    (hread : env2.logReadFails = false) :
    (∀ f ∈ files,
      f.URL ∈ loadDownloadedFiles env2 (syncRun env1 (okResponse eof body) sched1 w).2.log) ∧
    pendingFiles
      (loadDownloadedFiles env2 (syncRun env1 (okResponse eof body) sched1 w).2.log) files = [] ∧
    (syncRun env2 (okResponse eof body) sched2
      (syncRun env1 (okResponse eof body) sched1 w).2).1 = [] := by
  have hmemPending : ∀ f ∈ pendingFiles (loadDownloadedFiles env1 w.log) files, f ∈ files :=
    fun f hf => (List.mem_filter.mp hf).1
  have hmemOrder : ∀ f ∈ sched1 (pendingFiles (loadDownloadedFiles env1 w.log) files),
      f ∈ files := fun f hf => hmemPending f (hperm.mem_iff.mp hf)
  have hrun : (syncRun env1 (okResponse eof body) sched1 w).2
      = runTasks env1 w (sched1 (pendingFiles (loadDownloadedFiles env1 w.log) files)) := by
    simp only [syncRun, hfetch]
  have hlines := runTasks_logLines env1 _ w us hold hsucc
    (fun f hf => happend f (hmemOrder f hf))
  have hsafe : ∀ u ∈ us ++ (sched1 (pendingFiles (loadDownloadedFiles env1 w.log) files)).map
      GDELTFile.URL, ledgerSafe u := by
    intro u hu
    rcases List.mem_append.mp hu with h | h
    · exact hus u h
    · obtain ⟨f, hf, rfl⟩ := List.mem_map.mp h
      exact fetch_ok_url_safe eof body files hfetch f (hmemOrder f hf)
  have hload := loadDownloadedFiles_logLines env2 _ _ hlines hsafe hread
  have hall : ∀ f ∈ files,
      f.URL ∈ loadDownloadedFiles env2 (syncRun env1 (okResponse eof body) sched1 w).2.log := by
    intro f hf
    rw [hrun, hload]
    rcases pendingFiles_mem (loadDownloadedFiles env1 w.log) files f hf with h | h
    · exact List.mem_append_left _ (loadDownloadedFiles_subset env1 w.log us hold hus _ h)
    · exact List.mem_append_right _ (List.mem_map.mpr ⟨f, hperm.mem_iff.mpr h, rfl⟩)
  have hnil := pendingFiles_eq_nil _ files hall
  refine ⟨hall, hnil, ?_⟩
  have h2 : ∀ w2 : World, (syncRun env2 (okResponse eof body) sched2 w2).1
      = pendingFiles (loadDownloadedFiles env2 w2.log) files := by
    intro w2
    simp only [syncRun, hfetch]
  rw [h2]
  exact hnil

/-- C7 on the concrete scenario of the spec: the manifest is `demoLine`, the
ledger is missing, the server sends content with the declared digest. -/
theorem sync_idempotent_witness :
    (syncRun (serveAll (bytesOf "The quick brown fox jumps over the lazy dog"))
      (okResponse true demoLine) id
      (syncRun (serveAll (bytesOf "The quick brown fox jumps over the lazy dog"))
        (okResponse true demoLine) id ⟨emptyFS, none⟩).2).1 = [] :=
  (sync_idempotent (serveAll (bytesOf "The quick brown fox jumps over the lazy dog"))
    (serveAll (bytesOf "The quick brown fox jumps over the lazy dog"))
    true demoLine [demoEntry] id id ⟨emptyFS, none⟩ [] (by decide) (Or.inl ⟨rfl, rfl⟩)
    (by simp) (List.Perm.refl _) (by decide!) (by simp [serveAll]) rfl).2.2

/-- C7 as stated fails when the ledger cannot be written: every download of the
first run succeeds, `markFileAsDownloaded` only prints its error, and the
second run launches the download again. -/
theorem sync_not_idempotent_without_ledger :
    allSucceed (readOnlyLedgerEnv (bytesOf "The quick brown fox jumps over the lazy dog"))
      ⟨emptyFS, none⟩
      (pendingFiles (loadDownloadedFiles
        (readOnlyLedgerEnv (bytesOf "The quick brown fox jumps over the lazy dog")) none)
        [demoEntry]) = true ∧
    (syncRun (readOnlyLedgerEnv (bytesOf "The quick brown fox jumps over the lazy dog"))
      (okResponse true demoLine) id ⟨emptyFS, none⟩).1 = [demoEntry] ∧
    (syncRun (readOnlyLedgerEnv (bytesOf "The quick brown fox jumps over the lazy dog"))
      (okResponse true demoLine) id
      (syncRun (readOnlyLedgerEnv (bytesOf "The quick brown fox jumps over the lazy dog"))
        (okResponse true demoLine) id ⟨emptyFS, none⟩).2).1 = [demoEntry] := by
  decide!

/-! ## File paths of the download tasks -/

theorem Base_ne_nil (path : List Char) : filepath.Base path ≠ [] := by
  unfold filepath.Base
  split
  · simp
  · simp only []
    split
    · simp
    · assumption

/-- Cleaning `gdelt_data/t` for a single component `t` other than `..`. -/
theorem Clean_in_downloadDir (t : List Char) (hfree : ∀ c ∈ t, c ≠ '/') (hdd : t ≠ dotdot) :
    filepath.Clean (downloadDir ++ '/' :: t) =
      if t = [] ∨ t = ['.'] then downloadDir else downloadDir ++ '/' :: t := by
  have hfree2 : ∀ c ∈ t, (fun c => decide (c = '/')) c = false := by
    intro c hc
    simpa using hfree c hc
  have hsplit : splitBy (fun c => decide (c = '/')) (downloadDir ++ '/' :: t)
      = [downloadDir, t] := by
    rw [splitBy_append _ _ _ _ (by decide), splitBy_of_free _ _ hfree2]
    rfl
  unfold filepath.Clean
  rw [if_neg (by simp)]
  have hhead : (downloadDir ++ '/' :: t).head? ≠ some '/' := by
    simp [downloadDir]
  simp only [hhead, decide_False, Bool.false_eq_true, if_false, hsplit, List.foldl_cons,
    List.foldl_nil]
  have h0 : cleanStep false [] downloadDir = [downloadDir] := by decide
  rw [h0]
  unfold cleanStep
  by_cases h1 : t = [] ∨ t = ['.']
  · simp only [h1, if_true]
    simp [joinSep]
  · simp only [h1, hdd, if_false]
    simp [joinSep]

/-- The Final Artifact path of an entry whose name passes the check of
`downloadFile`: the download directory itself for the names `.` and the empty
name, otherwise the name inside the download directory. -/
theorem finalPath_of_safe (file : GDELTFile) (h : ¬ UnsafeName file.Filename) :
    finalPath file =
      if file.Filename = [] ∨ file.Filename = ['.'] then downloadDir
      else downloadDir ++ '/' :: file.Filename := by
  unfold finalPath filepath.Join
  rw [if_pos (by decide)]
  exact Clean_in_downloadDir _ (fun c hc hc2 => h (Or.inr (Or.inl (hc2 ▸ hc))))
    (fun hd => h (Or.inl (hd ▸ List.infix_refl _)))

/-- Entries with different names that pass the name check have different Final
Artifact paths, unless one name is empty and the other is `.`. -/
theorem finalPath_injective (a b : GDELTFile) (ha : ¬ UnsafeName a.Filename)
    (hb : ¬ UnsafeName b.Filename) (hane : a.Filename ≠ []) (hbne : b.Filename ≠ [])
    (hne : a.Filename ≠ b.Filename) : finalPath a ≠ finalPath b := by
  rw [finalPath_of_safe a ha, finalPath_of_safe b hb]
  by_cases h1 : a.Filename = ['.']
  · have h2 : b.Filename ≠ ['.'] := fun h => hne (h1.trans h.symm)
    simp only [h1, or_true, if_true, hbne, h2, or_self, if_false]
    intro h
    have := congrArg List.length h
    simp at this
  · by_cases h2 : b.Filename = ['.']
    · simp only [hane, h1, or_self, if_false, h2, or_true, if_true]
      intro h
      have := congrArg List.length h
      simp at this
    · simp only [hane, h1, hbne, h2, or_self, if_false]
      intro h
      exact hne (List.cons_injective (List.append_cancel_left h))

/-- The Staged Artifact path of one entry is the Final Artifact path of another
only if the second name is the first followed by `.tmp`. -/
theorem stagedPath_ne_other_finalPath (a b : GDELTFile) (ha : ¬ UnsafeName a.Filename)
    (hb : ¬ UnsafeName b.Filename) (hane : a.Filename ≠ []) (hbne : b.Filename ≠ [])
    (hne : b.Filename ≠ a.Filename ++ ".tmp".toList) : stagedPath a ≠ finalPath b := by
  unfold stagedPath
  rw [finalPath_of_safe a ha, finalPath_of_safe b hb]
  by_cases h1 : a.Filename = ['.']
  · by_cases h2 : b.Filename = ['.']
    · simp only [h1, h2, or_true, if_true]
      decide
    · simp only [h1, or_true, if_true, hbne, h2, or_self, if_false]
      intro h
      have := List.append_cancel_left h
      simp at this
  · by_cases h2 : b.Filename = ['.']
    · simp only [hane, h1, or_self, if_false, h2, or_true, if_true]
      intro h
      have := congrArg List.length h
      simp at this
    · simp only [hane, h1, hbne, h2, or_self, if_false]
      intro h
      rw [List.append_assoc] at h
      have h3 := List.append_cancel_left h
      simp only [List.cons_append, List.cons.injEq, true_and] at h3
      exact hne h3.symm

/-- C10 (distinct file path per task), for manifests whose entries have
pairwise distinct file names.  Any two tasks launched in one run (pending
entries at different positions) have different names; when both names pass the
name check, the two Final Artifact paths differ and the two Staged Artifact
paths differ, and the Staged Artifact path of one is not the Final Artifact
path of the other unless the latter's name is the former's followed by
`.tmp`. -/
theorem tasks_distinct_paths (env : Env) (eof : Bool) (body : List Char)
    (files : List GDELTFile)
    (log : Option (List Char)) (i j : Nat) (a b : GDELTFile)
    (hfetch : fetchMasterFilelist (okResponse eof body) = .ok files)
    (hnodup : (files.map GDELTFile.Filename).Nodup)
    (hi : (pendingFiles (loadDownloadedFiles env log) files)[i]? = some a)
    (hj : (pendingFiles (loadDownloadedFiles env log) files)[j]? = some b)
    (hij : i ≠ j) :
    a.Filename ≠ b.Filename ∧
    (¬ UnsafeName a.Filename → ¬ UnsafeName b.Filename →
      finalPath a ≠ finalPath b ∧ stagedPath a ≠ stagedPath b ∧
      (b.Filename ≠ a.Filename ++ ".tmp".toList → stagedPath a ≠ finalPath b) ∧
      (a.Filename ≠ b.Filename ++ ".tmp".toList → stagedPath b ≠ finalPath a)) := by
  have hsub : ((pendingFiles (loadDownloadedFiles env log) files).map GDELTFile.Filename).Nodup :=
    List.Nodup.sublist ((List.filter_sublist files).map _) hnodup
  have hne : a.Filename ≠ b.Filename := by
    intro hab
    have h1 : ((pendingFiles (loadDownloadedFiles env log) files).map GDELTFile.Filename)[i]?
        = some a.Filename := by simp [hi]
    have h2 : ((pendingFiles (loadDownloadedFiles env log) files).map GDELTFile.Filename)[j]?
        = some b.Filename := by simp [hj]
    have hlt : i < ((pendingFiles (loadDownloadedFiles env log) files).map
        GDELTFile.Filename).length := by
      by_contra hge
      rw [List.getElem?_eq_none (by omega)] at h1
      exact absurd h1 (by simp)
    exact hij (List.getElem?_inj hlt hsub (by rw [h1, h2, hab]))
  have hmem : ∀ f, f ∈ pendingFiles (loadDownloadedFiles env log) files → f.Filename ≠ [] := by
    intro f hf
    obtain ⟨raw, _, _, _, hentry⟩ :=
      fetch_ok_entry eof body files hfetch f (List.mem_filter.mp hf).1
    rw [hentry]
    exact Base_ne_nil _
  have hane := hmem a (List.getElem?_mem hi)
  have hbne := hmem b (List.getElem?_mem hj)
  refine ⟨hne, fun ha hb => ⟨finalPath_injective a b ha hb hane hbne hne, ?_,
    stagedPath_ne_other_finalPath a b ha hb hane hbne,
    stagedPath_ne_other_finalPath b a hb ha hbne hane⟩⟩
  unfold stagedPath
  intro h
  exact finalPath_injective a b ha hb hane hbne hne (List.append_cancel_right h)

/-- C10 at a manifest with the names `x.zip` and `y.zip`. -/
theorem tasks_distinct_paths_witness :
    finalPath ⟨1, "d41d8cd98f00b204e9800998ecf8427e".toList, "http://a/x.zip".toList,
        "x.zip".toList⟩
      ≠ finalPath ⟨1, "d41d8cd98f00b204e9800998ecf8427e".toList, "http://a/y.zip".toList,
        "y.zip".toList⟩ :=
  ((tasks_distinct_paths (serveAll []) true
    "1 d41d8cd98f00b204e9800998ecf8427e http://a/x.zip\n1 d41d8cd98f00b204e9800998ecf8427e http://a/y.zip".toList
    [⟨1, "d41d8cd98f00b204e9800998ecf8427e".toList, "http://a/x.zip".toList, "x.zip".toList⟩,
     ⟨1, "d41d8cd98f00b204e9800998ecf8427e".toList, "http://a/y.zip".toList, "y.zip".toList⟩]
    none 0 1 _ _ (by decide) (by decide) (by decide) (by decide) (by decide)).2
    (by unfold UnsafeName; decide) (by unfold UnsafeName; decide)).1

/-- C10 as stated fails: two manifest lines with different URLs and the same
final path segment `x.zip` are both pending with an empty ledger, so two tasks
are launched with the same name, the same Staged Artifact path and the same
Final Artifact path. -/
theorem tasks_share_path :
    fetchMasterFilelist (okResponse true twinBody) = .ok
      [⟨1, "d41d8cd98f00b204e9800998ecf8427e".toList, "http://a/x.zip".toList, "x.zip".toList⟩,
       ⟨1, "d41d8cd98f00b204e9800998ecf8427e".toList, "http://b/x.zip".toList, "x.zip".toList⟩] ∧
    (syncRun (serveAll []) (okResponse true twinBody) id ⟨emptyFS, none⟩).1 =
      [⟨1, "d41d8cd98f00b204e9800998ecf8427e".toList, "http://a/x.zip".toList, "x.zip".toList⟩,
       ⟨1, "d41d8cd98f00b204e9800998ecf8427e".toList, "http://b/x.zip".toList, "x.zip".toList⟩] ∧
    finalPath ⟨1, "d41d8cd98f00b204e9800998ecf8427e".toList, "http://a/x.zip".toList,
        "x.zip".toList⟩
      = finalPath ⟨1, "d41d8cd98f00b204e9800998ecf8427e".toList, "http://b/x.zip".toList,
        "x.zip".toList⟩ ∧
    stagedPath ⟨1, "d41d8cd98f00b204e9800998ecf8427e".toList, "http://a/x.zip".toList,
        "x.zip".toList⟩
      = "gdelt_data/x.zip.tmp".toList := by
  decide

/-! ## What holds for `downloadFile` and `unzipAllFiles` -/

theorem downloadFile_of_bad_name (env : Env) (fs : FS) (file : GDELTFile)
    (h : UnsafeName file.Filename) :
    downloadFile env fs file = ⟨some (.invalidFilename file.Filename), fs, []⟩ := by
  unfold downloadFile
  rw [if_pos ((nameGuard_iff file.Filename).mpr h)]

/-- A failed `downloadFile` leaves the Final Artifact path as it was. -/
theorem downloadFile_error_keeps_final (env : Env) (fs : FS) (file : GDELTFile)
    (herr : (downloadFile env fs file).err ≠ none) :
    (downloadFile env fs file).fs (finalPath file) = fs (finalPath file) := by
  have hne := (stagedPath_ne_finalPath file).symm
  by_cases hname : UnsafeName file.Filename
  · rw [downloadFile_of_bad_name env fs file hname]
  · unfold downloadFile at herr ⊢
    simp only [nameGuard_false _ hname, Bool.false_eq_true, if_false] at herr ⊢
    by_cases hreq : env.requestOk file.URL = true
    · cases hresp : env.server ⟨file.URL, (fs (stagedPath file)).map List.length⟩ with
      | none => simp [hreq, hresp]
      | some resp =>
        by_cases hst : resp.StatusCode ≠ 200 ∧ resp.StatusCode ≠ 206
        · simp [hreq, hresp, hst]
        · by_cases hopen : env.openFails (stagedPath file) = true
          · simp [hreq, hresp, hst, hopen]
          · cases hcopy : env.copyFault ⟨file.URL, (fs (stagedPath file)).map List.length⟩ with
            | some n => simp [hreq, hresp, hst, hopen, hcopy, FS.write, hne]
            | none =>
              by_cases hmd5 : md5Hex resp.Body ≠ file.MD5Sum
              · simp [hreq, hresp, hst, hopen, hcopy, hmd5, FS.write, hne]
              · by_cases hren : env.renameFails (stagedPath file) (finalPath file) = true
                · simp [hreq, hresp, hst, hopen, hcopy, hmd5, hren, FS.write, hne]
                · simp [hreq, hresp, hst, hopen, hcopy, hmd5, hren] at herr
    · simp [hreq]

/-- Without a Staged Artifact, a successful `downloadFile` leaves a Final
Artifact whose digest is the declared one. -/
theorem downloadFile_fresh_success (env : Env) (fs : FS) (file : GDELTFile)
    (hfresh : fs (stagedPath file) = none)
    (hok : (downloadFile env fs file).err = none) :
    ∃ content, (downloadFile env fs file).fs (finalPath file) = some content ∧
      md5Hex content = file.MD5Sum := by
  by_cases hname : UnsafeName file.Filename
  · rw [downloadFile_of_bad_name env fs file hname] at hok
    exact absurd hok (by simp)
  · unfold downloadFile at hok ⊢
    simp only [nameGuard_false _ hname, Bool.false_eq_true, if_false] at hok ⊢
    by_cases hreq : env.requestOk file.URL = true
    · cases hresp : env.server ⟨file.URL, (fs (stagedPath file)).map List.length⟩ with
      | none => simp [hreq, hresp] at hok
      | some resp =>
        by_cases hst : resp.StatusCode ≠ 200 ∧ resp.StatusCode ≠ 206
        · simp [hreq, hresp, hst] at hok
        · by_cases hopen : env.openFails (stagedPath file) = true
          · simp [hreq, hresp, hst, hopen] at hok
          · cases hcopy : env.copyFault ⟨file.URL, (fs (stagedPath file)).map List.length⟩ with
            | some n => simp [hreq, hresp, hst, hopen, hcopy] at hok
            | none =>
              by_cases hmd5 : md5Hex resp.Body ≠ file.MD5Sum
              · simp [hreq, hresp, hst, hopen, hcopy, hmd5] at hok
              · by_cases hren : env.renameFails (stagedPath file) (finalPath file) = true
                · simp [hreq, hresp, hst, hopen, hcopy, hmd5, hren] at hok
                · refine ⟨resp.Body, ?_, by simpa using hmd5⟩
                  simp [hreq, hresp, hst, hopen, hcopy, hmd5, hren, FS.rename, FS.write, hfresh]
    · simp [hreq] at hok

/-- For a name that passes the check and is neither empty nor `.`, both paths
of `downloadFile` lie strictly inside the download directory. -/
theorem paths_inside_downloadDir (file : GDELTFile) (h : ¬ UnsafeName file.Filename)
    (h1 : file.Filename ≠ []) (h2 : file.Filename ≠ ['.']) :
    beneath downloadDir (finalPath file) = true ∧
      beneath downloadDir (stagedPath file) = true := by
  have hfree : ∀ c ∈ file.Filename, c ≠ '/' := fun c hc hc2 => h (Or.inr (Or.inl (hc2 ▸ hc)))
  have hdd : file.Filename ≠ dotdot := fun hd => h (Or.inl (hd ▸ List.infix_refl _))
  have hfinal : finalPath file = downloadDir ++ '/' :: file.Filename := by
    rw [finalPath_of_safe file h, if_neg (by simp [h1, h2])]
  constructor
  · rw [beneath_iff]
    refine ⟨file.Filename, hfinal, ?_⟩
    rw [splitBy_of_free _ _ (by intro c hc; simpa using hfree c hc)]
    intro c hc
    rw [List.mem_singleton.mp hc, ordinary_iff]
    exact ⟨h1, h2, hdd⟩
  · rw [beneath_iff]
    refine ⟨file.Filename ++ ".tmp".toList, by simp [stagedPath, hfinal], ?_⟩
    have htmp : ∀ c ∈ ".tmp".toList, c ≠ '/' := by decide
    rw [splitBy_of_free _ _ (by
      intro c hc
      rcases List.mem_append.mp hc with hc | hc
      · simpa using hfree c hc
      · simpa using htmp c hc)]
    intro c hc
    rw [List.mem_singleton.mp hc, ordinary_iff]
    refine ⟨by simp, ?_, ?_⟩
    · intro h3
      have := congrArg List.length h3
      simp at this
    · intro h3
      have := congrArg List.length h3
      simp [dotdot] at this

/-- Every destination root that `unzipAllFiles` passes to `unzipFile` has a
cleaned form that does not end in `..`. -/
theorem destDirOf_ok (name : List Char) (hname : ∀ c ∈ name, c ≠ '/') :
    endsInDotDot (filepath.Clean (destDirOf name)) = false := by
  have hfree : ∀ c ∈ strings.TrimSuffix name ".zip".toList, c ≠ '/' := by
    intro c hc
    unfold strings.TrimSuffix at hc
    split at hc
    · exact hname c (List.mem_of_mem_take hc)
    · exact hname c hc
  unfold destDirOf filepath.Join
  rw [if_pos (by decide)]
  generalize strings.TrimSuffix name ".zip".toList = t at hfree ⊢
  by_cases hdd : t = dotdot
  · rw [hdd]
    decide
  · rw [Clean_in_downloadDir t hfree hdd]
    by_cases h1 : t = [] ∨ t = ['.']
    · rw [if_pos h1]
      decide
    · rw [if_neg h1, Clean_in_downloadDir t hfree hdd, if_neg h1]
      unfold endsInDotDot
      rw [splitBy_append _ _ _ _ (by decide),
        splitBy_of_free _ t (by intro c hc; simpa using hfree c hc)]
      simp [hdd]

/-- The resume defect in general: whatever is staged is promoted together with
the response body as soon as the body alone has the declared digest. -/
theorem downloadFile_promotes_staged (env : Env) (fs : FS) (file : GDELTFile)
    (resp : Response) (staged : List Byte)
    (hname : ¬ UnsafeName file.Filename)
    (hreq : env.requestOk file.URL = true)
    (hstaged : fs (stagedPath file) = some staged)
    (hresp : env.server ⟨file.URL, some staged.length⟩ = some resp)
    (hstatus : resp.StatusCode = 200 ∨ resp.StatusCode = 206)
    (hopen : env.openFails (stagedPath file) = false)
    (hcopy : env.copyFault ⟨file.URL, some staged.length⟩ = none)
    (hmd5 : md5Hex resp.Body = file.MD5Sum)
    (hren : env.renameFails (stagedPath file) (finalPath file) = false) :
    (downloadFile env fs file).err = none ∧
      (downloadFile env fs file).fs (finalPath file) = some (staged ++ resp.Body) := by
  have hrun := downloadFile_after_copy env fs file resp hname hreq
    (by rw [hstaged]; exact hresp) hstatus hopen (by rw [hstaged]; exact hcopy)
  rw [hrun]
  simp [hmd5, hren, FS.rename, FS.write, hstaged]

/-- The resume defect in general: a resumed transfer whose server sends exactly
the missing bytes fails the checksum unless the missing bytes alone have the
digest of the whole content. -/
theorem downloadFile_resume_mismatch (env : Env) (fs : FS) (file : GDELTFile)
    (content : List Byte) (n : Nat)
    (hname : ¬ UnsafeName file.Filename)
    (hreq : env.requestOk file.URL = true)
    (hn : n ≤ content.length)
    (hstaged : fs (stagedPath file) = some (content.take n))
    (hresp : env.server ⟨file.URL, some n⟩ = some ⟨206, content.drop n⟩)
    (hopen : env.openFails (stagedPath file) = false)
    (hcopy : env.copyFault ⟨file.URL, some n⟩ = none)
    (hsum : md5Hex content = file.MD5Sum)
    (hne : md5Hex (content.drop n) ≠ md5Hex content) :
    (downloadFile env fs file).err
        = some (.md5Mismatch file.MD5Sum (md5Hex (content.drop n))) ∧
      (downloadFile env fs file).fs (stagedPath file) = some content ∧
      (downloadFile env fs file).fs (finalPath file) = fs (finalPath file) := by
  have hlen : (content.take n).length = n := by simp [hn]
  have hrun := downloadFile_after_copy env fs file ⟨206, content.drop n⟩ hname hreq
    (by rw [hstaged, Option.map_some', hlen]; exact hresp) (Or.inr rfl) hopen
    (by rw [hstaged, Option.map_some', hlen]; exact hcopy)
  rw [hrun]
  have h2 : md5Hex (content.drop n) ≠ file.MD5Sum := by rw [← hsum]; exact hne
  simp [h2, FS.write, hstaged, (stagedPath_ne_finalPath file).symm]

end Gdelt
